import Mathlib

/-!
Shallow embedding of the BadgerDB buffer-pool manager (`src/BufMgr/BufMgr/src/buffer.cpp`)
and verification of the frozen claims about it.

File identities, page numbers and page contents are modelled as natural
numbers; the C++ `File*` pointer becomes `Option FileId` (`none` = null).
The external hash-table collaborator is modelled as an association list with
the insert / lookup / remove contract the spec gives for it; the external
file collaborator is modelled as an oracle (the values it returns are inputs
of the operations) together with an event trace that records the calls the
buffer manager makes on it.
-/

namespace BufMgr

abbrev FileId := Nat
abbrev PageId := Nat
abbrev Page := Nat

/-- One frame descriptor, fields as in `BufDesc` (buffer.h): owning file
pointer, page number, valid / dirty / refbit flags, pin count. -/
structure BufDesc where
  file : Option FileId
  pageNo : PageId
  valid : Bool
  dirty : Bool
  refbit : Bool
  pinCnt : Nat
deriving DecidableEq

/-- Modelled from the spec: `BufDesc::Clear()` is not under `src/` (it lives
in buffer.h); the spec says it "resets all fields to the unoccupied state
(valid=false, dirty=false, refBit=false, pinCnt=0, identity cleared)". -/
def BufDesc.Clear (_d : BufDesc) : BufDesc :=
  { file := none, pageNo := 0, valid := false, dirty := false, refbit := false, pinCnt := 0 }

/-- Modelled from the spec: `BufDesc::Set(file, pageNo)` is not under `src/`
(it lives in buffer.h); the spec says it "marks valid, stores identity,
resets pin count to 1, dirty to false, refBit to true". -/
def BufDesc.Set (_d : BufDesc) (f : FileId) (p : PageId) : BufDesc :=
  { file := some f, pageNo := p, valid := true, dirty := false, refbit := true, pinCnt := 1 }

/-- Every descriptor field except the refbit, bundled: the clock sweep's
second-chance pass may clear refbits but touches nothing else on the frames
it skips. -/
def descCore (d : BufDesc) : Bool × Bool × Option FileId × PageId × Nat :=
  (d.valid, d.dirty, d.file, d.pageNo, d.pinCnt)

/-- The external index collaborator (`BufHashTbl`), modelled per its contract
as an association list from (file identity, page number) to frame id. -/
abbrev HashTbl := List ((FileId × PageId) × Nat)

/-- Lookup in the index; `none` models the `HashNotFoundException` signal. -/
def htLookup (ht : HashTbl) (f : FileId) (p : PageId) : Option Nat :=
  match ht with
  | [] => none
  | e :: t => if e.1.1 = f ∧ e.1.2 = p then some e.2 else htLookup t f p

/-- Insert into the index (`BufHashTbl::insert`). -/
def htInsert (ht : HashTbl) (f : FileId) (p : PageId) (frameNo : Nat) : HashTbl :=
  ((f, p), frameNo) :: ht

/-- Test that an index entry does not carry the key (f, p). -/
def keyNe (f : FileId) (p : PageId) (e : (FileId × PageId) × Nat) : Bool :=
  !(e.1.1 == f && e.1.2 == p)

/-- Remove from the index (`BufHashTbl::remove`); returns `none` to model the
`HashNotFoundException` the collaborator throws when the key is absent. -/
def htRemove (ht : HashTbl) (f : FileId) (p : PageId) : Option HashTbl :=
  match htLookup ht f p with
  | some _ => some (ht.filter (keyNe f p))
  | none => none

/-- Lookup through an optional file pointer: a null owning-file pointer can
never be registered in the index. -/
def htLookupO (ht : HashTbl) (fo : Option FileId) (p : PageId) : Option Nat :=
  match fo with
  | some f => htLookup ht f p
  | none => none

/-- Pointwise function update, used for the descriptor table and the pool. -/
def updFn {α : Type} (g : Nat → α) (k : Nat) (v : α) : Nat → α :=
  fun j => if j = k then v else g j

/-- Calls the buffer manager makes on the external file collaborator. -/
inductive FEvent where
  | write (fo : Option FileId) (frameNo : Nat) (content : Page)
  | read (f : FileId) (p : PageId)
  | allocP (f : FileId) (p : PageId)
  | deleteP (f : FileId) (p : PageId)
deriving DecidableEq

/-- Errors the buffer manager can signal (the exception classes of the C++
code, plus `hashMiss` for an uncaught `HashNotFoundException` and `spun` as
an artefact marker for a fuel bound that is proved unreachable). -/
inductive Err where
  | bufferExceeded
  | pageNotPinned (fname : FileId) (p : PageId) (frameNo : Nat)
  | pagePinned (fname : FileId) (p : PageId) (frameNo : Nat)
  | badBuffer (frameNo : Nat) (dirty valid refbit : Bool)
  | hashMiss
  | spun
deriving DecidableEq

/-- The `BufMgr` state: pool size, descriptor table, frame array, index,
clock hand. -/
structure BufState where
  numBufs : Nat
  desc : Nat → BufDesc
  pool : Nat → Page
  hashTable : HashTbl
  clockHand : Nat

/-- Write one descriptor slot. -/
def setDesc (s : BufState) (k : Nat) (d : BufDesc) : BufState :=
  { s with desc := updFn s.desc k d }

/-- The `BufMgr` constructor: all descriptors start invalid (the spec's
unoccupied state), the clock hand starts at `bufs - 1`. -/
def initState (n : Nat) : BufState :=
  { numBufs := n
    desc := fun _ => BufDesc.Clear { file := none, pageNo := 0, valid := false,
                                     dirty := false, refbit := false, pinCnt := 0 }
    pool := fun _ => 0
    hashTable := []
    clockHand := n - 1 }

/-- `BufMgr::advanceClock`: move the hand one frame forward, modulo pool size. -/
def advanceClock (s : BufState) : BufState :=
  { s with clockHand := (s.clockHand + 1) % s.numBufs }

/-- Result of one bounded pass of the clock sweep inside `allocBuf`:
either a frame was selected (with the post state and the file events emitted)
or the pass visited its whole budget without selecting. -/
inductive SweepRes where
  | found (frameNo : Nat) (s : BufState) (evs : List FEvent)
  | nofind (s : BufState)

/-- The state carried by a sweep result. -/
def SweepRes.st : SweepRes → BufState
  | .found _ s _ => s
  | .nofind s => s

/-- Result of one loop-body execution inside `allocBuf`'s sweep: either the
visit selected a frame, or it moved on to the next iteration. -/
inductive StepRes where
  | fnd (frameNo : Nat) (s : BufState) (evs : List FEvent)
  | cont (s : BufState)

/-- One body execution of the inner `for` loop of `BufMgr::allocBuf`: advance
the clock; return an invalid frame immediately; clear a set refbit and move
on; skip a pinned frame; otherwise evict: write back if dirty, then (only if
the owning file pointer is non-null, and swallowing a not-found signal from
the index remove, in which case `Clear` is skipped) remove the index entry
and clear the descriptor, and return the frame. -/
def sweepStep (s : BufState) : StepRes :=
  let s1 := advanceClock s
  let h := s1.clockHand
  let d := s1.desc h
  if d.valid = false then .fnd h s1 []
  else if d.refbit then .cont (setDesc s1 h { d with refbit := false })
  else if 0 < d.pinCnt then .cont s1
  else
    let evs := if d.dirty then [FEvent.write d.file h (s1.pool h)] else []
    match d.file with
    | some f =>
      match htRemove s1.hashTable f d.pageNo with
      | some ht => .fnd h (setDesc { s1 with hashTable := ht } h (d.Clear)) evs
      | none => .fnd h s1 evs
    | none => .fnd h s1 evs

/-- The inner `for` loop of `BufMgr::allocBuf`, visiting `i` frames. -/
def sweep : BufState → Nat → SweepRes
  | s, 0 => .nofind s
  | s, Nat.succ i =>
    match sweepStep s with
    | .fnd h s1 evs => .found h s1 evs
    | .cont s1 => sweep s1 i

/-- Result of `allocBuf`: a frame (with post state and events), the
`BufferExceededException`, or fuel exhaustion (proved unreachable at fuel 2). -/
inductive AllocRes where
  | ok (frameNo : Nat) (s : BufState) (evs : List FEvent)
  | exhausted (s : BufState)
  | spin (s : BufState)

/-- The all-pinned test after a full unsuccessful pass: the C++ loop sets its
flag as soon as it sees a frame with `pinCnt == 0`. -/
def existsUnpinned (s : BufState) : Bool :=
  (List.range s.numBufs).any (fun i => (s.desc i).pinCnt == 0)

/-- The outer `while (true)` loop of `BufMgr::allocBuf`, fuelled: run one
full pass of `numBufs` visits; if it selects no frame and every frame is
pinned, throw `BufferExceededException`, otherwise start over. -/
def allocBufFuel : Nat → BufState → AllocRes
  | 0, s => .spin s
  | Nat.succ n, s =>
    match sweep s s.numBufs with
    | .found f s' evs => .ok f s' evs
    | .nofind s' => if existsUnpinned s' then allocBufFuel n s' else .exhausted s'

/-- `BufMgr::allocBuf`. Fuel 2 is exact: the theorems below prove the C++
loop always returns or throws within two full passes. -/
def allocBuf (s : BufState) : AllocRes :=
  allocBufFuel 2 s

/-- Result of an operation that may hand out a frame: the frame id the
returned `Page*` points into, the post state, the error thrown (if any), and
the file-collaborator events, in call order. -/
structure OpRes where
  ret : Option Nat
  state : BufState
  err : Option Err
  evs : List FEvent

/-- `BufMgr::readPage`: on an index hit, `pinCnt++`; on a miss, read the page
from the file, `allocBuf`, copy the content into the frame, insert into the
index, `Set` the descriptor. In either successful branch finally set the
refbit and return a pointer into the pool. -/
def readPage (s : BufState) (file : FileId) (pageNo : PageId) (content : Page) : OpRes :=
  match htLookup s.hashTable file pageNo with
  | some id =>
    let s1 := setDesc s id { s.desc id with pinCnt := (s.desc id).pinCnt + 1 }
    let s2 := setDesc s1 id { s1.desc id with refbit := true }
    { ret := some id, state := s2, err := none, evs := [] }
  | none =>
    match allocBuf s with
    | .ok id s1 evs =>
      let s2 := { s1 with pool := updFn s1.pool id content }
      let s3 := { s2 with hashTable := htInsert s2.hashTable file pageNo id }
      let s4 := setDesc s3 id ((s3.desc id).Set file pageNo)
      let s5 := setDesc s4 id { s4.desc id with refbit := true }
      { ret := some id, state := s5, err := none, evs := FEvent.read file pageNo :: evs }
    | .exhausted s1 =>
      { ret := none, state := s1, err := some .bufferExceeded, evs := [FEvent.read file pageNo] }
    | .spin s1 =>
      { ret := none, state := s1, err := some .spun, evs := [FEvent.read file pageNo] }

/-- `BufMgr::unPinPage`: a lookup miss is a silent no-op; a zero pin count
throws `PageNotPinnedException`; otherwise `pinCnt--` and, if the dirty
argument is set, the dirty bit is set (never cleared). -/
def unPinPage (s : BufState) (file : FileId) (pageNo : PageId) (dirty : Bool) :
    BufState × Option Err :=
  match htLookup s.hashTable file pageNo with
  | none => (s, none)
  | some id =>
    if (s.desc id).pinCnt = 0 then (s, some (.pageNotPinned file pageNo id))
    else
      let d := s.desc id
      let d1 := { d with pinCnt := d.pinCnt - 1, dirty := if dirty then true else d.dirty }
      (setDesc s id d1, none)

/-- The `for` loop of `BufMgr::flushFile`, scanning `rem` frames starting at
frame `k`: for each frame owned by `file` — throw `PagePinnedException` if
pinned, `BadBufferException` if invalid, otherwise write back if dirty and
clear the dirty bit, remove the index entry (an absent key would let
`HashNotFoundException` escape, modelled as `hashMiss`), and `Clear` the
descriptor. -/
def flushFrames (file : FileId) : Nat → Nat → BufState → BufState × Option Err × List FEvent
  | _, 0, s => (s, none, [])
  | k, Nat.succ rem, s =>
    let d := s.desc k
    if d.file = some file then
      if 0 < d.pinCnt then (s, some (.pagePinned file d.pageNo k), [])
      else if d.valid = false then (s, some (.badBuffer k d.dirty d.valid d.refbit), [])
      else
        let sw := if d.dirty then setDesc s k { d with dirty := false } else s
        let evs1 := if d.dirty then [FEvent.write d.file k (s.pool k)] else []
        match htRemove sw.hashTable file d.pageNo with
        | none => (sw, some .hashMiss, evs1)
        | some ht =>
          let s2 := setDesc { sw with hashTable := ht } k ((sw.desc k).Clear)
          let r := flushFrames file (k + 1) rem s2
          (r.1, r.2.1, evs1 ++ r.2.2)
    else
      flushFrames file (k + 1) rem s

/-- `BufMgr::flushFile`: scan all frames in frame order. -/
def flushFile (s : BufState) (file : FileId) : BufState × Option Err × List FEvent :=
  flushFrames file 0 s.numBufs s

/-- `BufMgr::allocPage`: ask the file for a new page number (`newPageId` is
the oracle value it returns), `allocBuf`, read the new page into the frame
(`content` is the oracle value), insert into the index, `Set` the descriptor. -/
def allocPage (s : BufState) (file : FileId) (newPageId : PageId) (content : Page) : OpRes :=
  match allocBuf s with
  | .ok id s1 evs =>
    let s2 := { s1 with pool := updFn s1.pool id content }
    let s3 := { s2 with hashTable := htInsert s2.hashTable file newPageId id }
    let s4 := setDesc s3 id ((s3.desc id).Set file newPageId)
    { ret := some id, state := s4, err := none,
      evs := FEvent.allocP file newPageId :: (evs ++ [FEvent.read file newPageId]) }
  | .exhausted s1 =>
    { ret := none, state := s1, err := some .bufferExceeded, evs := [FEvent.allocP file newPageId] }
  | .spin s1 =>
    { ret := none, state := s1, err := some .spun, evs := [FEvent.allocP file newPageId] }

/-- `BufMgr::disposePage`: on an index hit, `Clear` the descriptor and remove
the index entry (any not-found signal is swallowed); in every case delegate
to `File::deletePage`. -/
def disposePage (s : BufState) (file : FileId) (pageNo : PageId) : BufState × List FEvent :=
  let s1 :=
    match htLookup s.hashTable file pageNo with
    | some id =>
      let sc := setDesc s id ((s.desc id).Clear)
      match htRemove sc.hashTable file pageNo with
      | some ht => { sc with hashTable := ht }
      | none => sc
    | none => s
  (s1, [FEvent.deleteP file pageNo])

/-- Reachable pool states: everything obtainable from a freshly constructed
pool by the public operations. The side condition on `alloc` is the file
collaborator's contract: `File::allocatePage` hands out a fresh page slot,
so the returned page number is not currently resident. -/
inductive Reachable : BufState → Prop where
  | init (n : Nat) : Reachable (initState n)
  | fetch {s} (file : FileId) (pageNo : PageId) (content : Page) :
      Reachable s → Reachable (readPage s file pageNo content).state
  | release {s} (file : FileId) (pageNo : PageId) (dirty : Bool) :
      Reachable s → Reachable (unPinPage s file pageNo dirty).1
  | alloc {s} (file : FileId) (newPageId : PageId) (content : Page) :
      Reachable s → htLookup s.hashTable file newPageId = none →
      Reachable (allocPage s file newPageId content).state
  | dispose {s} (file : FileId) (pageNo : PageId) :
      Reachable s → Reachable (disposePage s file pageNo).1
  | flush {s} (file : FileId) :
      Reachable s → Reachable (flushFile s file).1

/-- The pool invariant: index keys are pairwise distinct; every index entry
points to an in-range valid frame carrying exactly that identity; every
valid frame is registered in the index under its own identity; every invalid
frame has a null file pointer and pin count zero. -/
def Inv (s : BufState) : Prop :=
  s.hashTable.Pairwise (fun a b => a.1 ≠ b.1) ∧
  (∀ e ∈ s.hashTable, e.2 < s.numBufs ∧ (s.desc e.2).valid = true ∧
      (s.desc e.2).file = some e.1.1 ∧ (s.desc e.2).pageNo = e.1.2) ∧
  (∀ f, f < s.numBufs → (s.desc f).valid = true →
      htLookupO s.hashTable (s.desc f).file (s.desc f).pageNo = some f) ∧
  (∀ f, f < s.numBufs → (s.desc f).valid = false →
      (s.desc f).file = none ∧ (s.desc f).pinCnt = 0)

instance (s : BufState) : Decidable (Inv s) := by
  unfold Inv
  infer_instance

/-- The frame the next loop-body execution of the sweep visits. -/
def vpos (s : BufState) : Nat := (s.clockHand + 1) % s.numBufs

/-- The events the eviction branch sends to the file collaborator: the
write-back of the victim's page when its dirty bit is set. -/
def evictEvs (s : BufState) (p : Nat) : List FEvent :=
  if (s.desc p).dirty then [FEvent.write (s.desc p).file p (s.pool p)] else []

/-- The state carried by an `allocBuf` result. -/
def AllocRes.st : AllocRes → BufState
  | .ok _ s _ => s
  | .exhausted s => s
  | .spin s => s

/-- A pool of three frames holding pages 10, 11 and 12 of file 1, each
pinned once (reached by three fetches from a fresh pool). -/
def demo3 : BufState :=
  (readPage (readPage (readPage (initState 3) 1 10 100).state 1 11 101).state 1 12 102).state

/-- The same pool after releasing page 10 (frame 0 unpinned, not dirty). -/
def demo3r : BufState := (unPinPage demo3 1 10 false).1

/-- A single-frame pool holding a dirty, unpinned, unreferenced page (3, 7)
registered in the index: the next sweep visit evicts it. -/
def evictDemo : BufState :=
  { numBufs := 1
    desc := fun _ => { file := some 3, pageNo := 7, valid := true, dirty := true,
                       refbit := false, pinCnt := 0 }
    pool := fun _ => 42
    hashTable := [((3, 7), 0)]
    clockHand := 0 }

/-- The same single-frame pool with the index entry missing: the sweep's
index remove signals not-found and the `Clear` is skipped. -/
def anomalyDemo : BufState :=
  { numBufs := 1
    desc := fun _ => { file := some 3, pageNo := 7, valid := true, dirty := true,
                       refbit := false, pinCnt := 0 }
    pool := fun _ => 42
    hashTable := []
    clockHand := 0 }

/-! ## Basic lemmas: update function, hash table, descriptors -/

@[simp]
theorem updFn_same {α : Type} (g : Nat → α) (k : Nat) (v : α) : updFn g k v k = v := by
  simp [updFn]

theorem updFn_ne {α : Type} (g : Nat → α) (k : Nat) (v : α) {j : Nat} (h : j ≠ k) :
    updFn g k v j = g j := by
  simp [updFn, h]

theorem htLookup_some_mem {ht : HashTbl} {f : FileId} {p : PageId} {i : Nat}
    (h : htLookup ht f p = some i) : ((f, p), i) ∈ ht := by
  induction ht with
  | nil => simp [htLookup] at h
  | cons e t ih =>
    obtain ⟨⟨ef, ep⟩, ei⟩ := e
    simp only [htLookup] at h
    split at h
    · rename_i hc
      obtain ⟨h1, h2⟩ := hc
      cases h
      simp_all
    · exact List.mem_cons_of_mem _ (ih h)

theorem htLookup_eq_none_iff {ht : HashTbl} {f : FileId} {p : PageId} :
    htLookup ht f p = none ↔ ∀ e ∈ ht, ¬(e.1.1 = f ∧ e.1.2 = p) := by
  induction ht with
  | nil => simp [htLookup]
  | cons e t ih =>
    simp only [htLookup]
    split
    · rename_i hc
      constructor
      · intro h
        simp at h
      · intro h
        exact absurd hc (h e (List.mem_cons_self e t))
    · rename_i hc
      rw [ih]
      constructor
      · intro h e' he'
        rcases List.mem_cons.mp he' with rfl | hm
        · exact hc
        · exact h e' hm
      · intro h e' he'
        exact h e' (List.mem_cons_of_mem _ he')

theorem keyNe_eq_true_iff {f : FileId} {p : PageId} {e : (FileId × PageId) × Nat} :
    keyNe f p e = true ↔ ¬(e.1.1 = f ∧ e.1.2 = p) := by
  simp [keyNe]
  tauto

theorem htLookup_insert_self (ht : HashTbl) (f : FileId) (p : PageId) (i : Nat) :
    htLookup (htInsert ht f p i) f p = some i := by
  simp [htInsert, htLookup]

theorem htLookup_insert_ne (ht : HashTbl) {f : FileId} {p : PageId} (i : Nat)
    {f' : FileId} {p' : PageId} (h : ¬(f = f' ∧ p = p')) :
    htLookup (htInsert ht f p i) f' p' = htLookup ht f' p' := by
  simp [htInsert, htLookup, h]

theorem htLookup_filterKey_self (ht : HashTbl) (f : FileId) (p : PageId) :
    htLookup (ht.filter (keyNe f p)) f p = none := by
  rw [htLookup_eq_none_iff]
  intro e he
  exact keyNe_eq_true_iff.mp (List.mem_filter.mp he).2

theorem htLookup_filterKey_ne (ht : HashTbl) (f : FileId) (p : PageId)
    {f' : FileId} {p' : PageId} (h : ¬(f' = f ∧ p' = p)) :
    htLookup (ht.filter (keyNe f p)) f' p' = htLookup ht f' p' := by
  induction ht with
  | nil => simp
  | cons e t ih =>
    rw [List.filter_cons]
    by_cases hk : e.1.1 = f ∧ e.1.2 = p
    · have hcond : keyNe f p e = false := by
        rw [Bool.eq_false_iff, Ne, keyNe_eq_true_iff]
        simpa using hk
      rw [hcond]
      have hne : ¬(e.1.1 = f' ∧ e.1.2 = p') := by
        rintro ⟨h1, h2⟩
        exact h ⟨h1.symm.trans hk.1, h2.symm.trans hk.2⟩
      simp only [Bool.false_eq_true, if_false]
      rw [ih]
      simp only [htLookup]
      rw [if_neg hne]
    · have hcond : keyNe f p e = true := keyNe_eq_true_iff.mpr hk
      rw [hcond, if_pos rfl]
      simp only [htLookup]
      rw [ih]

theorem htRemove_eq_some {ht ht' : HashTbl} {f : FileId} {p : PageId}
    (h : htRemove ht f p = some ht') : ht' = ht.filter (keyNe f p) := by
  unfold htRemove at h
  split at h
  · cases h; rfl
  · cases h

theorem htRemove_eq_none {ht : HashTbl} {f : FileId} {p : PageId}
    (h : htRemove ht f p = none) : htLookup ht f p = none := by
  unfold htRemove at h
  split at h
  · cases h
  · assumption

theorem htRemove_isSome {ht : HashTbl} {f : FileId} {p : PageId} {i : Nat}
    (h : htLookup ht f p = some i) : htRemove ht f p = some (ht.filter (keyNe f p)) := by
  unfold htRemove
  rw [h]

theorem htLookup_none_of_filter {ht : HashTbl} {f : FileId} {p : PageId}
    (pred : (FileId × PageId) × Nat → Bool) (h : htLookup ht f p = none) :
    htLookup (ht.filter pred) f p = none := by
  rw [htLookup_eq_none_iff] at h ⊢
  intro e he
  exact h e (List.mem_filter.mp he).1

theorem descCore_eq_iff {d d' : BufDesc} :
    descCore d = descCore d' ↔
      d.valid = d'.valid ∧ d.dirty = d'.dirty ∧ d.file = d'.file ∧
      d.pageNo = d'.pageNo ∧ d.pinCnt = d'.pinCnt := by
  simp [descCore, Prod.ext_iff]

@[simp]
theorem setDesc_numBufs (s : BufState) (k : Nat) (d : BufDesc) :
    (setDesc s k d).numBufs = s.numBufs := rfl

@[simp]
theorem setDesc_pool (s : BufState) (k : Nat) (d : BufDesc) :
    (setDesc s k d).pool = s.pool := rfl

@[simp]
theorem setDesc_hashTable (s : BufState) (k : Nat) (d : BufDesc) :
    (setDesc s k d).hashTable = s.hashTable := rfl

@[simp]
theorem setDesc_clockHand (s : BufState) (k : Nat) (d : BufDesc) :
    (setDesc s k d).clockHand = s.clockHand := rfl

@[simp]
theorem setDesc_desc_same (s : BufState) (k : Nat) (d : BufDesc) :
    (setDesc s k d).desc k = d := by
  simp [setDesc]

theorem setDesc_desc_ne (s : BufState) (k : Nat) (d : BufDesc) {j : Nat} (h : j ≠ k) :
    (setDesc s k d).desc j = s.desc j := by
  simp [setDesc, updFn, h]

@[simp]
theorem advanceClock_numBufs (s : BufState) : (advanceClock s).numBufs = s.numBufs := rfl

@[simp]
theorem advanceClock_pool (s : BufState) : (advanceClock s).pool = s.pool := rfl

@[simp]
theorem advanceClock_hashTable (s : BufState) : (advanceClock s).hashTable = s.hashTable := rfl

@[simp]
theorem advanceClock_desc (s : BufState) : (advanceClock s).desc = s.desc := rfl

@[simp]
theorem advanceClock_clockHand (s : BufState) :
    (advanceClock s).clockHand = (s.clockHand + 1) % s.numBufs := rfl

/-! ## One step of the clock sweep -/

theorem sweepStep_invalid {s : BufState} (h : (s.desc (vpos s)).valid = false) :
    sweepStep s = .fnd (vpos s) (advanceClock s) [] := by
  unfold sweepStep vpos at *
  simp only [advanceClock_clockHand, advanceClock_desc] at *
  rw [if_pos h]

theorem sweepStep_refbit {s : BufState} (hv : (s.desc (vpos s)).valid = true)
    (hr : (s.desc (vpos s)).refbit = true) :
    sweepStep s =
      .cont (setDesc (advanceClock s) (vpos s) { s.desc (vpos s) with refbit := false }) := by
  unfold sweepStep vpos at *
  simp only [advanceClock_clockHand, advanceClock_desc] at *
  rw [if_neg (by simp [hv]), if_pos hr]

theorem sweepStep_pinned {s : BufState} (hv : (s.desc (vpos s)).valid = true)
    (hr : (s.desc (vpos s)).refbit = false) (hp : 0 < (s.desc (vpos s)).pinCnt) :
    sweepStep s = .cont (advanceClock s) := by
  unfold sweepStep vpos at *
  simp only [advanceClock_clockHand, advanceClock_desc] at *
  rw [if_neg (by simp [hv]), if_neg (by simp [hr]), if_pos hp]

theorem sweepStep_evict {s : BufState} {fi : FileId} {ht' : HashTbl}
    (hv : (s.desc (vpos s)).valid = true) (hr : (s.desc (vpos s)).refbit = false)
    (hp : (s.desc (vpos s)).pinCnt = 0) (hf : (s.desc (vpos s)).file = some fi)
    (hrem : htRemove s.hashTable fi (s.desc (vpos s)).pageNo = some ht') :
    sweepStep s =
      .fnd (vpos s)
        (setDesc { advanceClock s with hashTable := ht' } (vpos s) ((s.desc (vpos s)).Clear))
        (evictEvs s (vpos s)) := by
  unfold sweepStep vpos evictEvs at *
  simp only [advanceClock_clockHand, advanceClock_desc, advanceClock_pool,
    advanceClock_hashTable] at *
  rw [if_neg (by simp [hv]), if_neg (by simp [hr]), if_neg (by simp [hp])]
  rw [hf]
  simp [hrem]

theorem sweepStep_noFile {s : BufState}
    (hv : (s.desc (vpos s)).valid = true) (hr : (s.desc (vpos s)).refbit = false)
    (hp : (s.desc (vpos s)).pinCnt = 0) (hf : (s.desc (vpos s)).file = none) :
    sweepStep s = .fnd (vpos s) (advanceClock s) (evictEvs s (vpos s)) := by
  unfold sweepStep vpos evictEvs at *
  simp only [advanceClock_clockHand, advanceClock_desc, advanceClock_pool,
    advanceClock_hashTable] at *
  rw [if_neg (by simp [hv]), if_neg (by simp [hr]), if_neg (by simp [hp])]
  rw [hf]

theorem sweepStep_removeMiss {s : BufState} {fi : FileId}
    (hv : (s.desc (vpos s)).valid = true) (hr : (s.desc (vpos s)).refbit = false)
    (hp : (s.desc (vpos s)).pinCnt = 0) (hf : (s.desc (vpos s)).file = some fi)
    (hrem : htRemove s.hashTable fi (s.desc (vpos s)).pageNo = none) :
    sweepStep s = .fnd (vpos s) (advanceClock s) (evictEvs s (vpos s)) := by
  unfold sweepStep vpos evictEvs at *
  simp only [advanceClock_clockHand, advanceClock_desc, advanceClock_pool,
    advanceClock_hashTable] at *
  rw [if_neg (by simp [hv]), if_neg (by simp [hr]), if_neg (by simp [hp])]
  rw [hf]
  simp [hrem]

theorem sweepStep_cont_spec {s s' : BufState} (h : sweepStep s = .cont s') :
    s'.numBufs = s.numBufs ∧ s'.pool = s.pool ∧ s'.hashTable = s.hashTable ∧
    s'.clockHand = vpos s ∧
    (∀ f, descCore (s'.desc f) = descCore (s.desc f)) ∧
    (∀ f, (s'.desc f).refbit = true → (s.desc f).refbit = true) ∧
    (s'.desc (vpos s)).valid = true ∧ (s'.desc (vpos s)).refbit = false := by
  by_cases hv : (s.desc (vpos s)).valid = false
  · rw [sweepStep_invalid hv] at h
    cases h
  · replace hv : (s.desc (vpos s)).valid = true := by
      simpa using hv
    by_cases hr : (s.desc (vpos s)).refbit = true
    · rw [sweepStep_refbit hv hr] at h
      injection h with h'
      subst h'
      refine ⟨by simp, by simp, by simp, by simp [vpos], ?_, ?_, ?_, ?_⟩
      · intro f
        by_cases hf : f = vpos s
        · subst hf
          simp [descCore]
        · rw [setDesc_desc_ne _ _ _ hf]
          simp
      · intro f hf
        by_cases hfe : f = vpos s
        · subst hfe
          simp at hf
        · rwa [setDesc_desc_ne _ _ _ hfe] at hf
      · simpa using hv
      · simp
    · replace hr : (s.desc (vpos s)).refbit = false := by
        simpa using hr
      by_cases hp : 0 < (s.desc (vpos s)).pinCnt
      · rw [sweepStep_pinned hv hr hp] at h
        injection h with h'
        subst h'
        exact ⟨rfl, rfl, rfl, rfl, fun f => rfl, fun f hf => hf, hv, hr⟩
      · replace hp : (s.desc (vpos s)).pinCnt = 0 := by omega
        rcases hf : (s.desc (vpos s)).file with _ | fi
        · rw [sweepStep_noFile hv hr hp hf] at h
          cases h
        · rcases hrem : htRemove s.hashTable fi (s.desc (vpos s)).pageNo with _ | ht'
          · rw [sweepStep_removeMiss hv hr hp hf hrem] at h
            cases h
          · rw [sweepStep_evict hv hr hp hf hrem] at h
            cases h

theorem sweepStep_fnd_spec {s s' : BufState} {p : Nat} {evs : List FEvent}
    (h : sweepStep s = .fnd p s' evs) :
    p = vpos s ∧ s'.numBufs = s.numBufs ∧ s'.pool = s.pool ∧ s'.clockHand = vpos s ∧
    (∀ f, (s'.desc f).pinCnt = (s.desc f).pinCnt) ∧
    (∀ f, f ≠ p → s'.desc f = s.desc f) ∧
    ((s.desc p).valid = true → (s.desc p).pinCnt = 0) ∧
    (∀ fi pg, htLookup s.hashTable fi pg = none → htLookup s'.hashTable fi pg = none) ∧
    (∀ fi pg, ¬((s.desc p).file = some fi ∧ (s.desc p).pageNo = pg) →
        htLookup s'.hashTable fi pg = htLookup s.hashTable fi pg) ∧
    (evs = [] ∨ evs = [FEvent.write (s.desc p).file p (s.pool p)]) := by
  by_cases hv : (s.desc (vpos s)).valid = false
  · rw [sweepStep_invalid hv] at h
    injection h with h1 h2 h3
    subst h1
    subst h2
    subst h3
    refine ⟨rfl, rfl, rfl, rfl, fun f => rfl, fun f _ => rfl, ?_, fun fi pg hl => hl,
      fun fi pg _ => rfl, Or.inl rfl⟩
    intro hcontra
    rw [hcontra] at hv
    cases hv
  · replace hv : (s.desc (vpos s)).valid = true := by
      simpa using hv
    by_cases hr : (s.desc (vpos s)).refbit = true
    · rw [sweepStep_refbit hv hr] at h
      cases h
    · replace hr : (s.desc (vpos s)).refbit = false := by
        simpa using hr
      by_cases hpin : 0 < (s.desc (vpos s)).pinCnt
      · rw [sweepStep_pinned hv hr hpin] at h
        cases h
      · replace hp : (s.desc (vpos s)).pinCnt = 0 := by omega
        have hevs : ∀ q : Nat, q = vpos s →
            evictEvs s q = [] ∨ evictEvs s q = [FEvent.write (s.desc q).file q (s.pool q)] := by
          intro q _
          unfold evictEvs
          by_cases hd : (s.desc q).dirty = true
          · rw [if_pos hd]
            exact Or.inr rfl
          · rw [if_neg hd]
            exact Or.inl rfl
        rcases hf : (s.desc (vpos s)).file with _ | fi
        · rw [sweepStep_noFile hv hr hp hf] at h
          injection h with h1 h2 h3
          subst h1
          subst h2
          subst h3
          exact ⟨rfl, rfl, rfl, rfl, fun f => rfl, fun f _ => rfl, fun _ => hp,
            fun fi pg hl => hl, fun fi pg _ => rfl, hevs _ rfl⟩
        · rcases hrem : htRemove s.hashTable fi (s.desc (vpos s)).pageNo with _ | ht'
          · rw [sweepStep_removeMiss hv hr hp hf hrem] at h
            injection h with h1 h2 h3
            subst h1
            subst h2
            subst h3
            exact ⟨rfl, rfl, rfl, rfl, fun f => rfl, fun f _ => rfl, fun _ => hp,
              fun fi pg hl => hl, fun fi pg _ => rfl, hevs _ rfl⟩
          · rw [sweepStep_evict hv hr hp hf hrem] at h
            injection h with h1 h2 h3
            subst h1
            subst h2
            subst h3
            have hht : ht' = s.hashTable.filter (keyNe fi (s.desc (vpos s)).pageNo) :=
              htRemove_eq_some hrem
            refine ⟨rfl, by simp, by simp, by simp [vpos], ?_, ?_, fun _ => hp, ?_, ?_, hevs _ rfl⟩
            · intro f
              by_cases hfe : f = vpos s
              · subst hfe
                simp [BufDesc.Clear, hp]
              · rw [setDesc_desc_ne _ _ _ hfe]
                rfl
            · intro f hfe
              rw [setDesc_desc_ne _ _ _ hfe]
              rfl
            · intro fi' pg hl
              have : (setDesc { advanceClock s with hashTable := ht' } (vpos s)
                  ((s.desc (vpos s)).Clear)).hashTable = ht' := rfl
              rw [this, hht]
              exact htLookup_none_of_filter _ hl
            · intro fi' pg hne
              have hsh : (setDesc { advanceClock s with hashTable := ht' } (vpos s)
                  ((s.desc (vpos s)).Clear)).hashTable = ht' := rfl
              rw [hsh, hht]
              apply htLookup_filterKey_ne
              rintro ⟨rfl, rfl⟩
              exact hne ⟨hf, rfl⟩

/-! ## The full sweep -/

theorem descCore_pin {d d' : BufDesc} (h : descCore d = descCore d') :
    d.pinCnt = d'.pinCnt := (descCore_eq_iff.mp h).2.2.2.2

theorem descCore_valid {d d' : BufDesc} (h : descCore d = descCore d') :
    d.valid = d'.valid := (descCore_eq_iff.mp h).1

/-- Position arithmetic: one clock advance shifts the visit schedule by one. -/
theorem mod_shift (N c j : Nat) : ((c + 1) % N + 1 + j) % N = (c + 1 + (j + 1)) % N := by
  rw [Nat.add_assoc ((c + 1) % N) 1 j, Nat.mod_add_mod]
  congr 1
  omega

/-- A full pass of `N` visits reaches every frame of the pool. -/
theorem visit_cover (N c f : Nat) (hN : 0 < N) (hf : f < N) :
    ∃ j, j < N ∧ (c + 1 + j) % N = f := by
  have ha : (c + 1) % N < N := Nat.mod_lt _ hN
  refine ⟨(f + N - (c + 1) % N) % N, Nat.mod_lt _ hN, ?_⟩
  rw [Nat.add_comm (c + 1) ((f + N - (c + 1) % N) % N), Nat.mod_add_mod]
  have hqd := Nat.div_add_mod (c + 1) N
  have hmul : N * ((c + 1) / N + 1) = N * ((c + 1) / N) + N := by ring
  have hx : f + N - (c + 1) % N + (c + 1) = f + N * ((c + 1) / N + 1) := by omega
  rw [hx, Nat.add_mul_mod_self_left, Nat.mod_eq_of_lt hf]

/-- Any number of sweep visits preserves the pool size, the frame contents
and every pin count. -/
theorem sweep_st_core (i : Nat) : ∀ s : BufState, (sweep s i).st.numBufs = s.numBufs ∧
    (sweep s i).st.pool = s.pool ∧
    (∀ f, ((sweep s i).st.desc f).pinCnt = (s.desc f).pinCnt) := by
  induction i with
  | zero => exact fun s => ⟨rfl, rfl, fun f => rfl⟩
  | succ i ih =>
    intro s
    rcases hstep : sweepStep s with ⟨p, s1, evs⟩ | s1
    · obtain ⟨_, hN, hpool, _, hpins, _⟩ := sweepStep_fnd_spec hstep
      simp only [sweep, hstep, SweepRes.st]
      exact ⟨hN, hpool, hpins⟩
    · obtain ⟨hN, hpool, _, _, hcore, _⟩ := sweepStep_cont_spec hstep
      simp only [sweep, hstep]
      obtain ⟨ihN, ihpool, ihpins⟩ := ih s1
      refine ⟨ihN.trans hN, ihpool.trans hpool, fun f => ?_⟩
      rw [ihpins f, descCore_pin (hcore f)]

/-- A pass that selects nothing changes nothing except clearing refbits, and
leaves every frame it visited valid with its refbit cleared. -/
theorem sweep_nofind_spec (i : Nat) : ∀ s s' : BufState, sweep s i = .nofind s' →
    s'.numBufs = s.numBufs ∧ s'.pool = s.pool ∧ s'.hashTable = s.hashTable ∧
    (∀ f, descCore (s'.desc f) = descCore (s.desc f)) ∧
    (∀ f, (s'.desc f).refbit = true → (s.desc f).refbit = true) ∧
    (∀ j, j < i → (s'.desc ((s.clockHand + 1 + j) % s.numBufs)).valid = true ∧
        (s'.desc ((s.clockHand + 1 + j) % s.numBufs)).refbit = false) := by
  induction i with
  | zero =>
    intro s s' h
    cases h
    exact ⟨rfl, rfl, rfl, fun f => rfl, fun f hf => hf, fun j hj => absurd hj (Nat.not_lt_zero j)⟩
  | succ i ih =>
    intro s s' h
    rcases hstep : sweepStep s with ⟨p, s1, evs⟩ | s1
    · rw [sweep, hstep] at h
      cases h
    · rw [sweep, hstep] at h
      obtain ⟨hN, hpool, hht, hclk, hcore, hrefb, hvv, hvr⟩ := sweepStep_cont_spec hstep
      obtain ⟨ihN, ihpool, ihht, ihcore, ihrefb, ihvis⟩ := ih s1 s' h
      refine ⟨ihN.trans hN, ihpool.trans hpool, ihht.trans hht,
        fun f => (ihcore f).trans (hcore f),
        fun f hf => hrefb f (ihrefb f hf), ?_⟩
      intro j hj
      rcases j with _ | j'
      · rw [Nat.add_zero]
        rw [show (s.clockHand + 1) % s.numBufs = vpos s from rfl]
        constructor
        · rw [descCore_valid (ihcore (vpos s)), hvv]
        · by_contra hcon
          rw [Bool.not_eq_false] at hcon
          have := ihrefb _ hcon
          rw [this] at hvr
          cases hvr
      · have hpos : (s1.clockHand + 1 + j') % s1.numBufs =
            (s.clockHand + 1 + (j' + 1)) % s.numBufs := by
          rw [hclk, hN]
          exact mod_shift s.numBufs s.clockHand j'
        have hv2 := ihvis j' (by omega)
        rw [hpos] at hv2
        exact hv2

/-- If the pool is entirely valid with all refbits clear and some frame in
the visit schedule is unpinned, the sweep selects a frame. -/
theorem sweep_found_exists (i : Nat) : ∀ (s : BufState) (j : Nat), 0 < s.numBufs →
    (∀ f, f < s.numBufs → (s.desc f).valid = true ∧ (s.desc f).refbit = false) →
    j < i → (s.desc ((s.clockHand + 1 + j) % s.numBufs)).pinCnt = 0 →
    ∃ p s' evs, sweep s i = .found p s' evs := by
  induction i with
  | zero =>
    intro s j _ _ hj _
    exact absurd hj (Nat.not_lt_zero j)
  | succ i ih =>
    intro s j hN hall hj hpin
    have hq : vpos s < s.numBufs := Nat.mod_lt _ hN
    obtain ⟨hqv, hqr⟩ := hall (vpos s) hq
    by_cases hq0 : (s.desc (vpos s)).pinCnt = 0
    · rcases hf : (s.desc (vpos s)).file with _ | fi
      · refine ⟨vpos s, advanceClock s, evictEvs s (vpos s), ?_⟩
        rw [sweep, sweepStep_noFile hqv hqr hq0 hf]
      · rcases hrem : htRemove s.hashTable fi (s.desc (vpos s)).pageNo with _ | ht'
        · refine ⟨vpos s, advanceClock s, evictEvs s (vpos s), ?_⟩
          rw [sweep, sweepStep_removeMiss hqv hqr hq0 hf hrem]
        · refine ⟨vpos s,
            setDesc { advanceClock s with hashTable := ht' } (vpos s) ((s.desc (vpos s)).Clear),
            evictEvs s (vpos s), ?_⟩
          rw [sweep, sweepStep_evict hqv hqr hq0 hf hrem]
    · have hjne : j ≠ 0 := by
        intro hj0
        subst hj0
        rw [Nat.add_zero] at hpin
        exact hq0 hpin
      obtain ⟨j', rfl⟩ : ∃ j', j = j' + 1 := ⟨j - 1, by omega⟩
      have hstep := sweepStep_pinned hqv hqr (by omega)
      have hrec : sweep s (i + 1) = sweep (advanceClock s) i := by
        rw [sweep, hstep]
      rw [hrec]
      apply ih (advanceClock s) j'
      · simpa using hN
      · simpa using hall
      · omega
      · simp only [advanceClock_desc, advanceClock_clockHand, advanceClock_numBufs]
        rw [show ((s.clockHand + 1) % s.numBufs + 1 + j') % s.numBufs =
            (s.clockHand + 1 + (j' + 1)) % s.numBufs from mod_shift s.numBufs s.clockHand j']
        exact hpin

/-! ## The outer allocBuf loop -/

theorem existsUnpinned_iff {s : BufState} :
    existsUnpinned s = true ↔ ∃ f, f < s.numBufs ∧ (s.desc f).pinCnt = 0 := by
  simp only [existsUnpinned, List.any_eq_true, List.mem_range, beq_iff_eq]

/-- After a selection-free full pass, every frame of the pool is valid with
its refbit cleared. -/
theorem sweep_nofind_allclear {s s1 : BufState} (hsw : sweep s s.numBufs = .nofind s1)
    (hN : 0 < s.numBufs) :
    ∀ f, f < s1.numBufs → (s1.desc f).valid = true ∧ (s1.desc f).refbit = false := by
  obtain ⟨hNeq, _, _, _, _, hvis⟩ := sweep_nofind_spec s.numBufs s s1 hsw
  intro f hf
  rw [hNeq] at hf
  obtain ⟨j, hj, hpos⟩ := visit_cover s.numBufs s.clockHand f hN hf
  have hv := hvis j hj
  rw [hpos] at hv
  exact hv

/-- After a selection-free full pass, a second full pass selects a frame as
soon as any frame is unpinned. -/
theorem second_sweep_found {s s1 : BufState} (hsw : sweep s s.numBufs = .nofind s1)
    (f0 : Nat) (hf0 : f0 < s1.numBufs) (hp0 : (s1.desc f0).pinCnt = 0) :
    ∃ p s2 evs, sweep s1 s1.numBufs = .found p s2 evs := by
  have hN1 : 0 < s1.numBufs := by omega
  have hN : 0 < s.numBufs := by
    rw [← (sweep_nofind_spec s.numBufs s s1 hsw).1]
    exact hN1
  have hall := sweep_nofind_allclear hsw hN
  obtain ⟨j, hj, hpos⟩ := visit_cover s1.numBufs s1.clockHand f0 hN1 hf0
  exact sweep_found_exists s1.numBufs s1 j hN1 hall hj (by rw [hpos]; exact hp0)

/-- Unfolding equation for one outer iteration of `allocBuf`. -/
theorem allocBufFuel_succ_eq (n : Nat) (s : BufState) :
    allocBufFuel (n + 1) s =
      (match sweep s s.numBufs with
        | .found f s' evs => AllocRes.ok f s' evs
        | .nofind s' =>
          if existsUnpinned s' then allocBufFuel n s' else AllocRes.exhausted s') := rfl

/-- Unfolding equation for `allocBuf` at fuel one. -/
theorem allocBufFuel_one_eq (s : BufState) :
    allocBufFuel 1 s =
      (match sweep s s.numBufs with
        | .found f s' evs => AllocRes.ok f s' evs
        | .nofind s' =>
          if existsUnpinned s' then allocBufFuel 0 s' else AllocRes.exhausted s') := rfl

/-- Unfolding equation for `allocBuf` at fuel two. -/
theorem allocBufFuel_two_eq (s : BufState) :
    allocBufFuel 2 s =
      (match sweep s s.numBufs with
        | .found f s' evs => AllocRes.ok f s' evs
        | .nofind s' =>
          if existsUnpinned s' then allocBufFuel 1 s' else AllocRes.exhausted s') := rfl

/-- `allocBuf` (at any fuel) preserves the pool size, the frame contents and
every pin count. -/
theorem allocBufFuel_st_core (n : Nat) : ∀ s : BufState,
    (allocBufFuel n s).st.numBufs = s.numBufs ∧ (allocBufFuel n s).st.pool = s.pool ∧
    (∀ f, ((allocBufFuel n s).st.desc f).pinCnt = (s.desc f).pinCnt) := by
  induction n with
  | zero => exact fun s => ⟨rfl, rfl, fun f => rfl⟩
  | succ n ih =>
    intro s
    have hcore := sweep_st_core s.numBufs s
    rcases hsw : sweep s s.numBufs with ⟨p, s1, evs⟩ | s1
    · rw [hsw] at hcore
      simp only [SweepRes.st] at hcore
      simp only [allocBufFuel_succ_eq, hsw, AllocRes.st]
      exact hcore
    · rw [hsw] at hcore
      simp only [SweepRes.st] at hcore
      simp only [allocBufFuel_succ_eq, hsw]
      by_cases hex : existsUnpinned s1 = true
      · rw [if_pos hex]
        obtain ⟨ihN, ihpool, ihpins⟩ := ih s1
        exact ⟨ihN.trans hcore.1, ihpool.trans hcore.2.1,
          fun f => (ihpins f).trans (hcore.2.2 f)⟩
      · rw [if_neg hex]
        simp only [AllocRes.st]
        exact hcore

/-- If `allocBuf` throws `BufferExceededException`, every frame of the pool
had a non-zero pin count when it was called. -/
theorem allocBufFuel_exhausted_pins (n : Nat) : ∀ {s s' : BufState},
    allocBufFuel n s = .exhausted s' → ∀ f, f < s.numBufs → (s.desc f).pinCnt ≠ 0 := by
  induction n with
  | zero =>
    intro s s' h
    cases h
  | succ n ih =>
    intro s s' h
    rcases hsw : sweep s s.numBufs with ⟨p, s1, evs⟩ | s1
    · simp only [allocBufFuel_succ_eq, hsw] at h
      cases h
    · simp only [allocBufFuel_succ_eq, hsw] at h
      obtain ⟨hNeq, _, _, hcore, _⟩ := sweep_nofind_spec s.numBufs s s1 hsw
      by_cases hex : existsUnpinned s1 = true
      · rw [if_pos hex] at h
        intro f hf
        rw [← descCore_pin (hcore f)]
        exact ih h f (by rw [hNeq]; exact hf)
      · intro f hf
        have hnone : ∀ g, g < s1.numBufs → (s1.desc g).pinCnt ≠ 0 := by
          intro g hg hg0
          exact hex (existsUnpinned_iff.mpr ⟨g, hg, hg0⟩)
        rw [← descCore_pin (hcore f)]
        exact hnone f (by rw [hNeq]; exact hf)

/-- If some frame is unpinned, `allocBuf` returns a frame within two passes. -/
theorem allocBufFuel_ok_of_unpinned {s : BufState} (f0 : Nat) (hf0 : f0 < s.numBufs)
    (hp0 : (s.desc f0).pinCnt = 0) :
    ∃ p s' evs, allocBufFuel 2 s = .ok p s' evs := by
  rcases hsw : sweep s s.numBufs with ⟨p, s1, evs⟩ | s1
  · exact ⟨p, s1, evs, by simp only [allocBufFuel_two_eq, hsw]⟩
  · obtain ⟨hNeq, _, _, hcore, _⟩ := sweep_nofind_spec s.numBufs s s1 hsw
    have hf1 : f0 < s1.numBufs := by rw [hNeq]; exact hf0
    have hp1 : (s1.desc f0).pinCnt = 0 := by rw [descCore_pin (hcore f0)]; exact hp0
    have hex : existsUnpinned s1 = true := existsUnpinned_iff.mpr ⟨f0, hf1, hp1⟩
    obtain ⟨p, s2, evs, hfound⟩ := second_sweep_found hsw f0 hf1 hp1
    refine ⟨p, s2, evs, ?_⟩
    simp only [allocBufFuel_two_eq, hsw]
    rw [if_pos hex]
    simp only [allocBufFuel_one_eq, hfound]

/-- Fuel 2 is exact for `allocBuf`: extra fuel never changes the result. -/
theorem allocBufFuel_stable (n : Nat) (s : BufState) :
    allocBufFuel (n + 2) s = allocBufFuel 2 s := by
  have h2 : n + 2 = (n + 1) + 1 := rfl
  rw [h2]
  rcases hsw : sweep s s.numBufs with ⟨p, s1, evs⟩ | s1
  · simp only [allocBufFuel_succ_eq, allocBufFuel_two_eq, hsw]
  · simp only [allocBufFuel_succ_eq, allocBufFuel_two_eq, hsw]
    by_cases hex : existsUnpinned s1 = true
    · rw [if_pos hex, if_pos hex]
      obtain ⟨f0, hf0, hp0⟩ := existsUnpinned_iff.mp hex
      obtain ⟨p, s2, evs, hfound⟩ := second_sweep_found hsw f0 hf0 hp0
      simp only [allocBufFuel_succ_eq, allocBufFuel_one_eq, hfound]
    · rw [if_neg hex, if_neg hex]

/-- `allocBuf` equals its fuelled version at every fuel of at least two. -/
theorem allocBuf_eq_fuel {n : Nat} (hn : 2 ≤ n) (s : BufState) :
    allocBufFuel n s = allocBuf s := by
  obtain ⟨m, rfl⟩ : ∃ m, n = m + 2 := ⟨n - 2, by omega⟩
  exact allocBufFuel_stable m s

/-- `allocBuf` always returns a frame or throws pool exhaustion: the fuel
bound is never reached. -/
theorem allocBuf_total (s : BufState) :
    (∃ p s' evs, allocBuf s = .ok p s' evs) ∨ (∃ s', allocBuf s = .exhausted s') := by
  unfold allocBuf
  rcases hsw : sweep s s.numBufs with ⟨p, s1, evs⟩ | s1
  · exact Or.inl ⟨p, s1, evs, by simp only [allocBufFuel_two_eq, hsw]⟩
  · by_cases hex : existsUnpinned s1 = true
    · obtain ⟨f0, hf0, hp0⟩ := existsUnpinned_iff.mp hex
      obtain ⟨p, s2, evs, hfound⟩ := second_sweep_found hsw f0 hf0 hp0
      refine Or.inl ⟨p, s2, evs, ?_⟩
      simp only [allocBufFuel_two_eq, hsw]
      rw [if_pos hex]
      simp only [allocBufFuel_one_eq, hfound]
    · refine Or.inr ⟨s1, ?_⟩
      simp only [allocBufFuel_two_eq, hsw]
      rw [if_neg hex]

/-! ## Invariant preservation -/

/-- Changing only pin counts, dirty bits and refbits (keeping identities) of
frames — with invalid frames keeping pin count zero — preserves the pool
invariant. -/
theorem Inv_mutate {s s' : BufState} (hht : s'.hashTable = s.hashTable)
    (hN : s'.numBufs = s.numBufs)
    (h1 : ∀ f, (s'.desc f).valid = (s.desc f).valid ∧ (s'.desc f).file = (s.desc f).file ∧
        (s'.desc f).pageNo = (s.desc f).pageNo)
    (h2 : ∀ f, f < s.numBufs → (s.desc f).valid = false → (s'.desc f).pinCnt = 0)
    (hInv : Inv s) : Inv s' := by
  obtain ⟨hpw, hent, hvalid, hinv⟩ := hInv
  refine ⟨by rw [hht]; exact hpw, ?_, ?_, ?_⟩
  · intro e he
    rw [hht] at he
    obtain ⟨h1n, h2v, h3f, h4p⟩ := hent e he
    exact ⟨by rw [hN]; exact h1n, by rw [(h1 e.2).1]; exact h2v,
      by rw [(h1 e.2).2.1]; exact h3f, by rw [(h1 e.2).2.2]; exact h4p⟩
  · intro f hf hv
    rw [hht, (h1 f).2.1, (h1 f).2.2]
    exact hvalid f (by rw [← hN]; exact hf) (by rw [← (h1 f).1]; exact hv)
  · intro f hf hv
    have hf' : f < s.numBufs := by rw [← hN]; exact hf
    have hv' : (s.desc f).valid = false := by rw [← (h1 f).1]; exact hv
    exact ⟨by rw [(h1 f).2.1]; exact (hinv f hf' hv').1, h2 f hf' hv'⟩

/-- Refbit-only changes preserve the pool invariant. -/
theorem Inv_congr {s s' : BufState} (hht : s'.hashTable = s.hashTable)
    (hN : s'.numBufs = s.numBufs)
    (hcore : ∀ f, descCore (s'.desc f) = descCore (s.desc f)) (hInv : Inv s) : Inv s' := by
  refine Inv_mutate hht hN ?_ ?_ hInv
  · intro f
    obtain ⟨ha, hb, hc, hd, he⟩ := descCore_eq_iff.mp (hcore f)
    exact ⟨ha, hc, hd⟩
  · intro f hf hv
    rw [descCore_pin (hcore f)]
    exact (hInv.2.2.2 f hf hv).2

/-- Installing a page into an invalid frame (insert the index entry, `Set`
the descriptor) preserves the pool invariant. -/
theorem install_inv {s1 : BufState} (hInv : Inv s1) {p : Nat} {file : FileId} {pageNo : PageId}
    (hval : (s1.desc p).valid = false) (hpN : p < s1.numBufs)
    (hnone : htLookup s1.hashTable file pageNo = none)
    {s2 : BufState} (hs2N : s2.numBufs = s1.numBufs)
    (hs2ht : s2.hashTable = htInsert s1.hashTable file pageNo p)
    (hs2descp : s2.desc p = { file := some file, pageNo := pageNo, valid := true, dirty := false, refbit := true, pinCnt := 1 })
    (hs2desc : ∀ f, f ≠ p → s2.desc f = s1.desc f) : Inv s2 := by
  obtain ⟨hpw, hent, hvalid, hinv⟩ := hInv
  have hkeys := htLookup_eq_none_iff.mp hnone
  refine ⟨?_, ?_, ?_, ?_⟩
  · rw [hs2ht]
    unfold htInsert
    rw [List.pairwise_cons]
    constructor
    · intro e he hkey
      exact hkeys e he (by rw [← hkey]; exact ⟨rfl, rfl⟩)
    · exact hpw
  · intro e he
    rw [hs2ht] at he
    unfold htInsert at he
    rcases List.mem_cons.mp he with rfl | hm
    · rw [hs2descp]
      exact ⟨by rw [hs2N]; exact hpN, rfl, rfl, rfl⟩
    · obtain ⟨h1n, h2v, h3f, h4p⟩ := hent e hm
      have hne : e.2 ≠ p := by
        intro he2
        rw [he2] at h2v
        rw [hval] at h2v
        cases h2v
      rw [hs2desc e.2 hne]
      exact ⟨by rw [hs2N]; exact h1n, h2v, h3f, h4p⟩
  · intro f hf hv
    by_cases hfp : f = p
    · subst hfp
      rw [hs2descp, hs2ht]
      simp only [htLookupO]
      exact htLookup_insert_self s1.hashTable file pageNo f
    · rw [hs2desc f hfp] at hv ⊢
      have hlk := hvalid f (by rw [← hs2N]; exact hf) hv
      rcases hfo : (s1.desc f).file with _ | fi
      · rw [hfo] at hlk
        simp only [htLookupO] at hlk
        cases hlk
      · rw [hfo] at hlk
        simp only [htLookupO] at hlk ⊢
        rw [hs2ht]
        rw [htLookup_insert_ne s1.hashTable p ?hne]
        · exact hlk
        case hne =>
          rintro ⟨rfl, rfl⟩
          rw [hlk] at hnone
          cases hnone
  · intro f hf hv
    by_cases hfp : f = p
    · subst hfp
      rw [hs2descp] at hv
      cases hv
    · rw [hs2desc f hfp] at hv ⊢
      exact hinv f (by rw [← hs2N]; exact hf) hv

/-- Clearing a resident frame and removing its index entry preserves the
pool invariant. -/
theorem clear_remove_inv {s : BufState} (hInv : Inv s) {id : Nat} {file : FileId}
    {pageNo : PageId} (hl : htLookup s.hashTable file pageNo = some id)
    {s' : BufState} (hN : s'.numBufs = s.numBufs)
    (hht : s'.hashTable = s.hashTable.filter (keyNe file pageNo))
    (hdv : (s'.desc id).valid = false) (hdf : (s'.desc id).file = none)
    (hdp : (s'.desc id).pinCnt = 0)
    (hdo : ∀ f, f ≠ id → s'.desc f = s.desc f) : Inv s' := by
  obtain ⟨hpw, hent, hvalid, hinv⟩ := hInv
  have hmem := htLookup_some_mem hl
  have hidN : id < s.numBufs := (hent _ hmem).1
  have hidv : (s.desc id).valid = true := (hent _ hmem).2.1
  have hidf : (s.desc id).file = some file := (hent _ hmem).2.2.1
  have hidp : (s.desc id).pageNo = pageNo := (hent _ hmem).2.2.2
  refine ⟨?_, ?_, ?_, ?_⟩
  · rw [hht]
    exact hpw.sublist (List.filter_sublist s.hashTable)
  · intro e he
    rw [hht] at he
    obtain ⟨hm, hk⟩ := List.mem_filter.mp he
    obtain ⟨h1n, h2v, h3f, h4p⟩ := hent e hm
    have hne : e.2 ≠ id := by
      intro he2
      rw [he2] at h3f h4p
      rw [hidf] at h3f
      rw [hidp] at h4p
      have : ¬(e.1.1 = file ∧ e.1.2 = pageNo) := keyNe_eq_true_iff.mp hk
      exact this ⟨by injection h3f with h'; exact h'.symm, h4p.symm⟩
    rw [hdo e.2 hne]
    exact ⟨by rw [hN]; exact h1n, h2v, h3f, h4p⟩
  · intro f hf hv
    by_cases hfid : f = id
    · subst hfid
      rw [hdv] at hv
      cases hv
    · rw [hdo f hfid] at hv ⊢
      have hlk := hvalid f (by rw [← hN]; exact hf) hv
      rcases hfo : (s.desc f).file with _ | fi
      · rw [hfo] at hlk
        simp only [htLookupO] at hlk
        cases hlk
      · rw [hfo] at hlk
        simp only [htLookupO] at hlk ⊢
        rw [hht]
        rw [htLookup_filterKey_ne s.hashTable file pageNo ?hkne]
        · exact hlk
        case hkne =>
          rintro ⟨rfl, rfl⟩
          rw [hlk] at hl
          injection hl with h'
          exact hfid h'
  · intro f hf hv
    by_cases hfid : f = id
    · subst hfid
      exact ⟨hdf, hdp⟩
    · rw [hdo f hfid] at hv ⊢
      exact hinv f (by rw [← hN]; exact hf) hv


theorem sweepStep_cont_inv {s s' : BufState} (hInv : Inv s) (h : sweepStep s = .cont s') :
    Inv s' := by
  obtain ⟨hN, _, hht, _, hcore, _⟩ := sweepStep_cont_spec h
  exact Inv_congr hht hN hcore hInv

theorem sweepStep_fnd_inv {s s' : BufState} {p : Nat} {evs : List FEvent} (hInv : Inv s)
    (hN : 0 < s.numBufs) (h : sweepStep s = .fnd p s' evs) :
    Inv s' ∧ (s'.desc p).valid = false ∧ (s'.desc p).file = none ∧ (s'.desc p).pinCnt = 0 ∧
      p < s'.numBufs := by
  have hvN : vpos s < s.numBufs := Nat.mod_lt _ hN
  by_cases hv : (s.desc (vpos s)).valid = false
  · rw [sweepStep_invalid hv] at h
    injection h with h1 h2 h3
    subst h1
    subst h2
    have h4 := hInv.2.2.2 (vpos s) hvN hv
    exact ⟨Inv_congr rfl rfl (fun f => rfl) hInv, hv, h4.1, h4.2, by simpa using hvN⟩
  · replace hv : (s.desc (vpos s)).valid = true := by
      simpa using hv
    by_cases hr : (s.desc (vpos s)).refbit = true
    · rw [sweepStep_refbit hv hr] at h
      cases h
    · replace hr : (s.desc (vpos s)).refbit = false := by
        simpa using hr
      by_cases hpin : 0 < (s.desc (vpos s)).pinCnt
      · rw [sweepStep_pinned hv hr hpin] at h
        cases h
      · replace hp : (s.desc (vpos s)).pinCnt = 0 := by omega
        have hlk0 := hInv.2.2.1 (vpos s) hvN hv
        rcases hf : (s.desc (vpos s)).file with _ | fi
        · rw [hf] at hlk0
          simp only [htLookupO] at hlk0
          cases hlk0
        · rw [hf] at hlk0
          simp only [htLookupO] at hlk0
          rcases hrem : htRemove s.hashTable fi (s.desc (vpos s)).pageNo with _ | ht'
          · rw [htRemove_eq_none hrem] at hlk0
            cases hlk0
          · rw [sweepStep_evict hv hr hp hf hrem] at h
            injection h with h1 h2 h3
            subst h1
            subst h2
            refine ⟨?_, by simp [BufDesc.Clear], by simp [BufDesc.Clear],
              by simp [BufDesc.Clear], by simpa using hvN⟩
            refine clear_remove_inv hInv hlk0 rfl ?_ ?_ ?_ ?_ ?_
            · rw [htRemove_eq_some hrem]
              rfl
            · simp [BufDesc.Clear]
            · simp [BufDesc.Clear]
            · simp [BufDesc.Clear]
            · intro f hfe
              rw [setDesc_desc_ne _ _ _ hfe]
              rfl

theorem sweep_found_inv (i : Nat) : ∀ {s : BufState} {p : Nat} {s' : BufState}
    {evs : List FEvent}, Inv s → 0 < s.numBufs → sweep s i = .found p s' evs →
    Inv s' ∧ (s'.desc p).valid = false ∧ (s'.desc p).file = none ∧ (s'.desc p).pinCnt = 0 ∧
      p < s'.numBufs := by
  induction i with
  | zero =>
    intro s p s' evs _ _ h
    cases h
  | succ i ih =>
    intro s p s' evs hInv hN h
    rcases hstep : sweepStep s with ⟨q, s1, evs1⟩ | s1
    · rw [sweep, hstep] at h
      injection h with h1 h2 h3
      subst h1
      subst h2
      subst h3
      exact sweepStep_fnd_inv hInv hN hstep
    · rw [sweep, hstep] at h
      have hN1 : 0 < s1.numBufs := by
        rw [(sweepStep_cont_spec hstep).1]
        exact hN
      exact ih (sweepStep_cont_inv hInv hstep) hN1 h

theorem sweep_nofind_inv {i : Nat} {s s' : BufState} (hInv : Inv s)
    (h : sweep s i = .nofind s') : Inv s' := by
  obtain ⟨hN, _, hht, hcore, _⟩ := sweep_nofind_spec i s s' h
  exact Inv_congr hht hN hcore hInv

theorem sweep_found_ht_none (i : Nat) : ∀ {s : BufState} {p : Nat} {s' : BufState}
    {evs : List FEvent}, sweep s i = .found p s' evs →
    ∀ fi pg, htLookup s.hashTable fi pg = none → htLookup s'.hashTable fi pg = none := by
  induction i with
  | zero =>
    intro s p s' evs h
    cases h
  | succ i ih =>
    intro s p s' evs h fi pg hnone
    rcases hstep : sweepStep s with ⟨q, s1, evs1⟩ | s1
    · rw [sweep, hstep] at h
      injection h with h1 h2 h3
      subst h1
      subst h2
      subst h3
      exact (sweepStep_fnd_spec hstep).2.2.2.2.2.2.2.1 fi pg hnone
    · rw [sweep, hstep] at h
      have hht := (sweepStep_cont_spec hstep).2.2.1
      exact ih h fi pg (by rw [hht]; exact hnone)

/-- If `allocBuf` succeeds under the pool invariant, the invariant still
holds, the returned frame is in range and its descriptor is fully cleared
(or was never populated), and no new index entry appeared. -/
theorem allocBufFuel_ok_inv (n : Nat) : ∀ {s : BufState} {p : Nat} {s' : BufState}
    {evs : List FEvent}, Inv s → allocBufFuel n s = .ok p s' evs →
    Inv s' ∧ (s'.desc p).valid = false ∧ (s'.desc p).file = none ∧ (s'.desc p).pinCnt = 0 ∧
      p < s'.numBufs ∧ s'.numBufs = s.numBufs ∧
      (∀ fi pg, htLookup s.hashTable fi pg = none → htLookup s'.hashTable fi pg = none) := by
  induction n with
  | zero =>
    intro s p s' evs _ h
    cases h
  | succ n ih =>
    intro s p s' evs hInv h
    rcases hsw : sweep s s.numBufs with ⟨q, s1, evs1⟩ | s1
    · simp only [allocBufFuel_succ_eq, hsw] at h
      injection h with h1 h2 h3
      subst h1
      subst h2
      subst h3
      have hN : 0 < s.numBufs := by
        rcases Nat.eq_zero_or_pos s.numBufs with hz | hpos
        · rw [hz] at hsw
          simp only [sweep] at hsw
          cases hsw
        · exact hpos
      have hNeq := (sweep_st_core s.numBufs s).1
      rw [hsw] at hNeq
      simp only [SweepRes.st] at hNeq
      obtain ⟨hI, ha, hb, hc, hd⟩ := sweep_found_inv s.numBufs hInv hN hsw
      exact ⟨hI, ha, hb, hc, hd, hNeq, sweep_found_ht_none s.numBufs hsw⟩
    · simp only [allocBufFuel_succ_eq, hsw] at h
      by_cases hex : existsUnpinned s1 = true
      · rw [if_pos hex] at h
        obtain ⟨hNeq, _, hht, hcore, _⟩ := sweep_nofind_spec s.numBufs s s1 hsw
        obtain ⟨hI, ha, hb, hc, hd, hN1, hnone⟩ := ih (sweep_nofind_inv hInv hsw) h
        exact ⟨hI, ha, hb, hc, hd, hN1.trans hNeq,
          fun fi pg hn => hnone fi pg (by rw [hht]; exact hn)⟩
      · rw [if_neg hex] at h
        cases h

theorem allocBufFuel_exhausted_inv (n : Nat) : ∀ {s s' : BufState}, Inv s →
    allocBufFuel n s = .exhausted s' → Inv s' := by
  induction n with
  | zero =>
    intro s s' _ h
    cases h
  | succ n ih =>
    intro s s' hInv h
    rcases hsw : sweep s s.numBufs with ⟨q, s1, evs1⟩ | s1
    · simp only [allocBufFuel_succ_eq, hsw] at h
      cases h
    · simp only [allocBufFuel_succ_eq, hsw] at h
      by_cases hex : existsUnpinned s1 = true
      · rw [if_pos hex] at h
        exact ih (sweep_nofind_inv hInv hsw) h
      · rw [if_neg hex] at h
        injection h with h1
        subst h1
        exact sweep_nofind_inv hInv hsw

/-- `readPage` preserves the pool invariant. -/
theorem inv_readPage {s : BufState} (hInv : Inv s) (file : FileId) (pageNo : PageId)
    (content : Page) : Inv (readPage s file pageNo content).state := by
  rcases hl : htLookup s.hashTable file pageNo with _ | id
  · rcases halloc : allocBuf s with ⟨p, s1, evs⟩ | s1 | s1
    · simp only [readPage, hl, halloc]
      obtain ⟨hI, hval, hfile, hpin, hpN, hNeq, hnone⟩ := allocBufFuel_ok_inv 2 hInv halloc
      refine install_inv hI hval hpN (hnone file pageNo hl) rfl rfl ?_ ?_
      · simp [setDesc, updFn, BufDesc.Set]
      · intro f hfe
        rw [setDesc_desc_ne _ _ _ hfe, setDesc_desc_ne _ _ _ hfe]
    · simp only [readPage, hl, halloc]
      exact allocBufFuel_exhausted_inv 2 hInv halloc
    · rcases allocBuf_total s with ⟨p', s'', evs', heq⟩ | ⟨s'', heq⟩ <;>
        rw [halloc] at heq <;> cases heq
  · simp only [readPage, hl]
    have hmem := htLookup_some_mem hl
    have hidv := (hInv.2.1 _ hmem).2.1
    refine Inv_mutate ?_ ?_ ?_ ?_ hInv
    · rfl
    · rfl
    · intro f
      by_cases hfe : f = id
      · subst hfe
        simp [setDesc, updFn]
      · rw [setDesc_desc_ne _ _ _ hfe, setDesc_desc_ne _ _ _ hfe]
        exact ⟨rfl, rfl, rfl⟩
    · intro f hf hval
      by_cases hfe : f = id
      · subst hfe
        rw [hval] at hidv
        cases hidv
      · rw [setDesc_desc_ne _ _ _ hfe, setDesc_desc_ne _ _ _ hfe]
        exact (hInv.2.2.2 f hf hval).2

/-- `unPinPage` preserves the pool invariant. -/
theorem inv_unPinPage {s : BufState} (hInv : Inv s) (file : FileId) (pageNo : PageId)
    (dirty : Bool) : Inv (unPinPage s file pageNo dirty).1 := by
  rcases hl : htLookup s.hashTable file pageNo with _ | id
  · simp only [unPinPage, hl]
    exact hInv
  · simp only [unPinPage, hl]
    by_cases hp : (s.desc id).pinCnt = 0
    · rw [if_pos hp]
      exact hInv
    · rw [if_neg hp]
      have hmem := htLookup_some_mem hl
      have hidv := (hInv.2.1 _ hmem).2.1
      refine Inv_mutate ?_ ?_ ?_ ?_ hInv
      · rfl
      · rfl
      · intro f
        by_cases hfe : f = id
        · subst hfe
          simp [setDesc, updFn]
        · rw [setDesc_desc_ne _ _ _ hfe]
          exact ⟨rfl, rfl, rfl⟩
      · intro f hf hval
        by_cases hfe : f = id
        · subst hfe
          rw [hval] at hidv
          cases hidv
        · rw [setDesc_desc_ne _ _ _ hfe]
          exact (hInv.2.2.2 f hf hval).2

/-- `allocPage` preserves the pool invariant, provided the file collaborator
returns a page number that is not currently resident. -/
theorem inv_allocPage {s : BufState} (hInv : Inv s) (file : FileId) (newPageId : PageId)
    (content : Page) (hfresh : htLookup s.hashTable file newPageId = none) :
    Inv (allocPage s file newPageId content).state := by
  rcases halloc : allocBuf s with ⟨p, s1, evs⟩ | s1 | s1
  · simp only [allocPage, halloc]
    obtain ⟨hI, hval, hfile, hpin, hpN, hNeq, hnone⟩ := allocBufFuel_ok_inv 2 hInv halloc
    refine install_inv hI hval hpN (hnone file newPageId hfresh) rfl rfl ?_ ?_
    · simp [setDesc, updFn, BufDesc.Set]
    · intro f hfe
      rw [setDesc_desc_ne _ _ _ hfe]
  · simp only [allocPage, halloc]
    exact allocBufFuel_exhausted_inv 2 hInv halloc
  · rcases allocBuf_total s with ⟨p', s'', evs', heq⟩ | ⟨s'', heq⟩ <;>
      rw [halloc] at heq <;> cases heq

/-- `disposePage` preserves the pool invariant. -/
theorem inv_disposePage {s : BufState} (hInv : Inv s) (file : FileId) (pageNo : PageId) :
    Inv (disposePage s file pageNo).1 := by
  rcases hl : htLookup s.hashTable file pageNo with _ | id
  · simp only [disposePage, hl]
    exact hInv
  · have hrem : htRemove s.hashTable file pageNo =
        some (s.hashTable.filter (keyNe file pageNo)) := htRemove_isSome hl
    simp only [disposePage, hl, setDesc_hashTable, hrem]
    refine clear_remove_inv hInv hl rfl rfl ?_ ?_ ?_ ?_
    · simp [BufDesc.Clear]
    · simp [BufDesc.Clear]
    · simp [BufDesc.Clear]
    · intro f hfe
      rw [setDesc_desc_ne _ _ _ hfe]

/-- Every iteration of the `flushFile` scan preserves the pool invariant. -/
theorem flushFrames_inv (rem : Nat) : ∀ (k : Nat) (s : BufState) (file : FileId), Inv s →
    k + rem ≤ s.numBufs → Inv (flushFrames file k rem s).1 := by
  induction rem with
  | zero => exact fun k s file h _ => h
  | succ rem ih =>
    intro k s file hInv hle
    have hkN : k < s.numBufs := by omega
    by_cases hm : (s.desc k).file = some file
    · simp only [flushFrames]
      rw [if_pos hm]
      by_cases hpin : 0 < (s.desc k).pinCnt
      · rw [if_pos hpin]
        exact hInv
      · rw [if_neg hpin]
        by_cases hval : (s.desc k).valid = false
        · rw [if_pos hval]
          exact hInv
        · rw [if_neg hval]
          replace hval : (s.desc k).valid = true := by
            simpa using hval
          have hlk0 := hInv.2.2.1 k hkN hval
          rw [hm] at hlk0
          simp only [htLookupO] at hlk0
          have hswInv : Inv (if (s.desc k).dirty = true
              then setDesc s k { s.desc k with dirty := false } else s) := by
            by_cases hd : (s.desc k).dirty = true
            · rw [if_pos hd]
              refine Inv_mutate ?_ ?_ ?_ ?_ hInv
              · rfl
              · rfl
              · intro f
                by_cases hfe : f = k
                · subst hfe
                  simp [setDesc, updFn]
                · rw [setDesc_desc_ne _ _ _ hfe]
                  exact ⟨rfl, rfl, rfl⟩
              · intro f hf hv
                by_cases hfe : f = k
                · subst hfe
                  rw [hv] at hval
                  cases hval
                · rw [setDesc_desc_ne _ _ _ hfe]
                  exact (hInv.2.2.2 f hf hv).2
            · rw [if_neg hd]
              exact hInv
          set sw := if (s.desc k).dirty = true
              then setDesc s k { s.desc k with dirty := false } else s with hswdef
          have hswht : sw.hashTable = s.hashTable := by
            rw [hswdef]
            by_cases hd : (s.desc k).dirty = true
            · rw [if_pos hd]
              rfl
            · rw [if_neg hd]
          have hswN : sw.numBufs = s.numBufs := by
            rw [hswdef]
            by_cases hd : (s.desc k).dirty = true
            · rw [if_pos hd]
              rfl
            · rw [if_neg hd]
          have hlksw : htLookup sw.hashTable file (s.desc k).pageNo = some k := by
            rw [hswht]
            exact hlk0
          have hrem : htRemove sw.hashTable file (s.desc k).pageNo =
              some (sw.hashTable.filter (keyNe file (s.desc k).pageNo)) := htRemove_isSome hlksw
          rw [hrem]
          have hInv2 : Inv (setDesc { sw with hashTable := sw.hashTable.filter (keyNe file (s.desc k).pageNo) } k ((sw.desc k).Clear)) := by
            refine clear_remove_inv hswInv hlksw rfl rfl ?_ ?_ ?_ ?_
            · simp [BufDesc.Clear]
            · simp [BufDesc.Clear]
            · simp [BufDesc.Clear]
            · intro f hfe
              rw [setDesc_desc_ne _ _ _ hfe]
          exact ih (k + 1) _ file hInv2 (by simpa [hswN] using Nat.le_trans (by omega) hle)
    · simp only [flushFrames]
      rw [if_neg hm]
      exact ih (k + 1) s file hInv (by omega)

/-- `flushFile` preserves the pool invariant. -/
theorem inv_flushFile {s : BufState} (hInv : Inv s) (file : FileId) :
    Inv (flushFile s file).1 :=
  flushFrames_inv s.numBufs 0 s file hInv (by omega)

/-- The freshly constructed pool satisfies the invariant. -/
theorem inv_initState (n : Nat) : Inv (initState n) := by
  refine ⟨List.Pairwise.nil, ?_, ?_, ?_⟩
  · intro e he
    cases he
  · intro f _ hv
    simp [initState, BufDesc.Clear] at hv
  · intro f _ _
    exact ⟨rfl, rfl⟩

/-- Every reachable pool state satisfies the invariant. -/
theorem reachable_inv {s : BufState} (h : Reachable s) : Inv s := by
  induction h with
  | init n => exact inv_initState n
  | fetch file pageNo content _ ih => exact inv_readPage ih file pageNo content
  | release file pageNo dirty _ ih => exact inv_unPinPage ih file pageNo dirty
  | alloc file newPageId content _ hfresh ih => exact inv_allocPage ih file newPageId content hfresh
  | dispose file pageNo _ ih => exact inv_disposePage ih file pageNo
  | flush file _ ih => exact inv_flushFile ih file

/-! ## Pinned frames are untouchable; all-pinned pools exhaust -/

/-- Throughout a sweep under the invariant, a valid pinned frame is never
selected, never written back, keeps every non-refbit field, and keeps its
index entry. -/
theorem sweep_pinned_safe (i : Nat) : ∀ {s : BufState} {f : Nat}, Inv s → f < s.numBufs →
    (s.desc f).valid = true → 0 < (s.desc f).pinCnt →
    ∀ {p : Nat} {s' : BufState} {evs : List FEvent}, sweep s i = .found p s' evs →
      p ≠ f ∧ (∀ fo c, FEvent.write fo f c ∉ evs) ∧
      descCore (s'.desc f) = descCore (s.desc f) ∧
      htLookupO s'.hashTable (s.desc f).file (s.desc f).pageNo = some f := by
  induction i with
  | zero =>
    intro s f _ _ _ _ p s' evs h
    cases h
  | succ i ih =>
    intro s f hInv hfN hfv hfp p s' evs h
    have hN : 0 < s.numBufs := by omega
    have hlkf := hInv.2.2.1 f hfN hfv
    rcases hfo : (s.desc f).file with _ | fif
    · rw [hfo] at hlkf
      simp only [htLookupO] at hlkf
      cases hlkf
    · rw [hfo] at hlkf
      simp only [htLookupO] at hlkf
      rcases hstep : sweepStep s with ⟨q, s1, evs1⟩ | s1
      · rw [sweep, hstep] at h
        injection h with h1 h2 h3
        subst h1
        subst h2
        subst h3
        obtain ⟨hq, _, _, _, _, hother, hvp, hnonepres, hkeypres, hevs⟩ :=
          sweepStep_fnd_spec hstep
        have hpf : q ≠ f := by
          intro hpf
          subst hpf
          have := hvp hfv
          omega
        refine ⟨hpf, ?_, ?_, ?_⟩
        · intro fo c hmem
          rcases hevs with hevs | hevs
          · rw [hevs] at hmem
            cases hmem
          · rw [hevs] at hmem
            rcases List.mem_singleton.mp hmem with hEq
            injection hEq with e1 e2 e3
            exact hpf e2.symm
        · rw [hother f (fun hEq => hpf hEq.symm)]
        · simp only [htLookupO]
          rw [hkeypres fif (s.desc f).pageNo ?hne]
          · exact hlkf
          case hne =>
            rintro ⟨hq1, hq2⟩
            by_cases hqv : (s.desc q).valid = true
            · have hqN : q < s.numBufs := by
                rw [hq]
                exact Nat.mod_lt _ hN
              have hlkq := hInv.2.2.1 q hqN hqv
              rw [hq1] at hlkq
              simp only [htLookupO] at hlkq
              rw [hq2] at hlkq
              rw [hlkq] at hlkf
              injection hlkf with hc
              exact hpf hc
            · replace hqv : (s.desc q).valid = false := by
                simpa using hqv
              have hqN : q < s.numBufs := by
                rw [hq]
                exact Nat.mod_lt _ hN
              have := (hInv.2.2.2 q hqN hqv).1
              rw [this] at hq1
              cases hq1
      · rw [sweep, hstep] at h
        obtain ⟨hN1, _, hht1, _, hcore1, _⟩ := sweepStep_cont_spec hstep
        have hInv1 : Inv s1 := sweepStep_cont_inv hInv hstep
        have hfN1 : f < s1.numBufs := by rw [hN1]; exact hfN
        have hfv1 : (s1.desc f).valid = true := by
          rw [descCore_valid (hcore1 f)]
          exact hfv
        have hfp1 : 0 < (s1.desc f).pinCnt := by
          rw [descCore_pin (hcore1 f)]
          exact hfp
        obtain ⟨ha, hb, hc, hd⟩ := ih hInv1 hfN1 hfv1 hfp1 h
        refine ⟨ha, hb, hc.trans (hcore1 f), ?_⟩
        simp only [htLookupO]
        have hfo1 : (s1.desc f).file = some fif := by
          rw [(descCore_eq_iff.mp (hcore1 f)).2.2.1]
          exact hfo
        have hpg1 : (s1.desc f).pageNo = (s.desc f).pageNo :=
          (descCore_eq_iff.mp (hcore1 f)).2.2.2.1
        rw [hfo1] at hd
        simp only [htLookupO] at hd
        rw [hpg1] at hd
        exact hd

/-- Throughout `allocBuf` under the invariant, a valid pinned frame is never
returned, never written back, keeps every non-refbit field, and keeps its
index entry — whether allocation succeeds or throws. -/
theorem allocBufFuel_pinned_safe (n : Nat) : ∀ {s : BufState} {f : Nat}, Inv s →
    f < s.numBufs → (s.desc f).valid = true → 0 < (s.desc f).pinCnt →
    (∀ p s' evs, allocBufFuel n s = .ok p s' evs →
      p ≠ f ∧ (∀ fo c, FEvent.write fo f c ∉ evs) ∧
      descCore (s'.desc f) = descCore (s.desc f) ∧
      htLookupO s'.hashTable (s.desc f).file (s.desc f).pageNo = some f) ∧
    (∀ s', allocBufFuel n s = .exhausted s' →
      descCore (s'.desc f) = descCore (s.desc f) ∧
      htLookupO s'.hashTable (s.desc f).file (s.desc f).pageNo = some f) := by
  induction n with
  | zero =>
    intro s f _ _ _ _
    constructor
    · intro p s' evs h
      cases h
    · intro s' h
      cases h
  | succ n ih =>
    intro s f hInv hfN hfv hfp
    rcases hsw : sweep s s.numBufs with ⟨q, s1, evs1⟩ | s1
    · constructor
      · intro p s' evs h
        simp only [allocBufFuel_succ_eq, hsw] at h
        injection h with h1 h2 h3
        subst h1
        subst h2
        subst h3
        exact sweep_pinned_safe s.numBufs hInv hfN hfv hfp hsw
      · intro s' h
        simp only [allocBufFuel_succ_eq, hsw] at h
        cases h
    · obtain ⟨hN1, _, hht1, hcore1, _⟩ := sweep_nofind_spec s.numBufs s s1 hsw
      have hInv1 : Inv s1 := sweep_nofind_inv hInv hsw
      have hfN1 : f < s1.numBufs := by rw [hN1]; exact hfN
      have hfv1 : (s1.desc f).valid = true := by
        rw [descCore_valid (hcore1 f)]
        exact hfv
      have hfp1 : 0 < (s1.desc f).pinCnt := by
        rw [descCore_pin (hcore1 f)]
        exact hfp
      have htrans : ∀ {s2 : BufState},
          htLookupO s2.hashTable (s1.desc f).file (s1.desc f).pageNo = some f →
          htLookupO s2.hashTable (s.desc f).file (s.desc f).pageNo = some f := by
        intro s2 hx
        rw [← (descCore_eq_iff.mp (hcore1 f)).2.2.1, ← (descCore_eq_iff.mp (hcore1 f)).2.2.2.1]
        exact hx
      constructor
      · intro p s' evs h
        simp only [allocBufFuel_succ_eq, hsw] at h
        by_cases hex : existsUnpinned s1 = true
        · rw [if_pos hex] at h
          obtain ⟨ha, hb, hc, hd⟩ := (ih hInv1 hfN1 hfv1 hfp1).1 p s' evs h
          exact ⟨ha, hb, hc.trans (hcore1 f), htrans hd⟩
        · rw [if_neg hex] at h
          cases h
      · intro s' h
        simp only [allocBufFuel_succ_eq, hsw] at h
        by_cases hex : existsUnpinned s1 = true
        · rw [if_pos hex] at h
          obtain ⟨hc, hd⟩ := (ih hInv1 hfN1 hfv1 hfp1).2 s' h
          exact ⟨hc.trans (hcore1 f), htrans hd⟩
        · rw [if_neg hex] at h
          injection h with h1
          subst h1
          refine ⟨hcore1 f, ?_⟩
          rw [hht1]
          exact hInv.2.2.1 f hfN hfv

/-- A sweep over a pool whose frames are all valid and pinned selects
nothing. -/
theorem sweep_nofind_of_allpinned (i : Nat) : ∀ {s : BufState},
    (∀ f, f < s.numBufs → (s.desc f).valid = true ∧ (s.desc f).pinCnt ≠ 0) →
    0 < s.numBufs → ∃ s', sweep s i = .nofind s' := by
  induction i with
  | zero =>
    intro s _ _
    exact ⟨s, rfl⟩
  | succ i ih =>
    intro s hall hN
    have hq : vpos s < s.numBufs := Nat.mod_lt _ hN
    obtain ⟨hqv, hqp⟩ := hall (vpos s) hq
    rcases hstep : sweepStep s with ⟨q, s1, evs1⟩ | s1
    · exfalso
      have hqe := (sweepStep_fnd_spec hstep).1
      subst hqe
      have := (sweepStep_fnd_spec hstep).2.2.2.2.2.2.1 hqv
      omega
    · obtain ⟨hN1, _, _, _, hcore1, _⟩ := sweepStep_cont_spec hstep
      have hall1 : ∀ f, f < s1.numBufs → (s1.desc f).valid = true ∧ (s1.desc f).pinCnt ≠ 0 := by
        intro f hf
        have := hall f (by rw [← hN1]; exact hf)
        exact ⟨by rw [descCore_valid (hcore1 f)]; exact this.1,
          by rw [descCore_pin (hcore1 f)]; exact this.2⟩
      obtain ⟨s', hs'⟩ := ih hall1 (by rw [hN1]; exact hN)
      exact ⟨s', by rw [sweep, hstep]; exact hs'⟩

/-- With every frame valid and pinned, `allocBuf` throws pool exhaustion. -/
theorem allocBuf_exhausted_of_allpinned {s : BufState}
    (hall : ∀ f, f < s.numBufs → (s.desc f).valid = true ∧ (s.desc f).pinCnt ≠ 0) :
    ∃ s', allocBuf s = .exhausted s' := by
  rcases Nat.eq_zero_or_pos s.numBufs with hz | hN
  · refine ⟨s, ?_⟩
    unfold allocBuf
    simp only [allocBufFuel_two_eq, hz, sweep]
    rw [if_neg ?hc]
    case hc =>
      intro hx
      obtain ⟨f, hf, _⟩ := existsUnpinned_iff.mp hx
      omega
  · obtain ⟨s1, hsw⟩ := sweep_nofind_of_allpinned s.numBufs hall hN
    obtain ⟨hN1, _, _, hcore1, _⟩ := sweep_nofind_spec s.numBufs s s1 hsw
    refine ⟨s1, ?_⟩
    unfold allocBuf
    simp only [allocBufFuel_two_eq, hsw]
    rw [if_neg ?hc2]
    case hc2 =>
      intro hx
      obtain ⟨f, hf, hf0⟩ := existsUnpinned_iff.mp hx
      have := (hall f (by rw [← hN1]; exact hf)).2
      rw [descCore_pin (hcore1 f)] at hf0
      omega

/-- Pairwise-distinct keys make the index a partial function from keys to
frames. -/
theorem pairwise_key_unique {ht : HashTbl} (hpw : ht.Pairwise (fun a b => a.1 ≠ b.1)) :
    ∀ e1 ∈ ht, ∀ e2 ∈ ht, e1.1 = e2.1 → e1.2 = e2.2 := by
  induction ht with
  | nil =>
    intro e1 he1
    cases he1
  | cons e t ih =>
    rw [List.pairwise_cons] at hpw
    intro e1 he1 e2 he2 hk
    rcases List.mem_cons.mp he1 with rfl | hm1 <;> rcases List.mem_cons.mp he2 with rfl | hm2
    · rfl
    · exact absurd hk (hpw.1 e2 hm2)
    · exact absurd hk.symm (hpw.1 e1 hm1)
    · exact ih hpw.2 e1 hm1 e2 hm2 hk

/-! ## Characterization of the flushFile scan -/

/-- Full characterization of the `flushFile` scan over the window
[k, k + rem) of frames: frames outside the window or owned by other files
are untouched, index entries of other files survive, absent keys stay
absent; if every owned frame in the window is unpinned and valid the scan
succeeds, clearing and deregistering each owned frame and writing each dirty
owned frame back exactly once; if some owned frame is pinned or invalid, the
scan stops at the first such frame with the corresponding error, having
processed exactly the owned frames before it. -/
theorem flushFrames_spec (rem : Nat) : ∀ (k : Nat) (s : BufState) (file : FileId), Inv s →
    k + rem ≤ s.numBufs →
    (∀ j, j < k ∨ k + rem ≤ j → (flushFrames file k rem s).1.desc j = s.desc j) ∧
    (∀ j, (s.desc j).file ≠ some file → (flushFrames file k rem s).1.desc j = s.desc j) ∧
    (∀ f' p', f' ≠ file →
        htLookup (flushFrames file k rem s).1.hashTable f' p' = htLookup s.hashTable f' p') ∧
    (∀ f' p', htLookup s.hashTable f' p' = none →
        htLookup (flushFrames file k rem s).1.hashTable f' p' = none) ∧
    ((∀ j, k ≤ j → j < k + rem → (s.desc j).file = some file →
        (s.desc j).pinCnt = 0 ∧ (s.desc j).valid = true) →
      (flushFrames file k rem s).2.1 = none ∧
      (∀ j, k ≤ j → j < k + rem → (s.desc j).file = some file →
        (flushFrames file k rem s).1.desc j = (s.desc j).Clear ∧
        htLookup (flushFrames file k rem s).1.hashTable file (s.desc j).pageNo = none) ∧
      (∀ j, ((flushFrames file k rem s).2.2).count (FEvent.write (some file) j (s.pool j)) =
        if k ≤ j ∧ j < k + rem ∧ (s.desc j).file = some file ∧ (s.desc j).dirty = true
        then 1 else 0)) ∧
    (∀ k0, k ≤ k0 → k0 < k + rem → (s.desc k0).file = some file →
      ((s.desc k0).pinCnt ≠ 0 ∨ (s.desc k0).valid = false) →
      (∀ j, k ≤ j → j < k0 → (s.desc j).file = some file →
        (s.desc j).pinCnt = 0 ∧ (s.desc j).valid = true) →
      (flushFrames file k rem s).2.1 = some (if 0 < (s.desc k0).pinCnt
          then Err.pagePinned file (s.desc k0).pageNo k0
          else Err.badBuffer k0 (s.desc k0).dirty (s.desc k0).valid (s.desc k0).refbit) ∧
      (∀ j, k ≤ j → j < k0 → (s.desc j).file = some file →
        (flushFrames file k rem s).1.desc j = (s.desc j).Clear ∧
        htLookup (flushFrames file k rem s).1.hashTable file (s.desc j).pageNo = none) ∧
      (∀ j, k0 ≤ j → (flushFrames file k rem s).1.desc j = s.desc j)) := by
  induction rem with
  | zero =>
    intro k s file hInv hle
    refine ⟨fun j _ => rfl, fun j _ => rfl, fun f' p' _ => rfl, fun f' p' h => h, ?_, ?_⟩
    · intro _
      refine ⟨rfl, fun j h1 h2 _ => absurd h2 (by omega), fun j => ?_⟩
      rw [if_neg (by omega)]
      rfl
    · intro k0 h1 h2
      exact absurd h2 (by omega)
  | succ rem ih =>
    intro k s file hInv hle
    have hkN : k < s.numBufs := by omega
    by_cases hm : (s.desc k).file = some file
    · simp only [flushFrames]
      rw [if_pos hm]
      by_cases hpin : 0 < (s.desc k).pinCnt
      · rw [if_pos hpin]
        refine ⟨fun j _ => rfl, fun j _ => rfl, fun f' p' _ => rfl, fun f' p' h => h, ?_, ?_⟩
        · intro hok
          have := (hok k (le_refl k) (by omega) hm).1
          omega
        · intro k0 hk0a hk0b hk0m hk0bad hpref
          rcases Nat.eq_or_lt_of_le hk0a with rfl | hlt
          · refine ⟨by rw [if_pos hpin], fun j h1 h2 _ => absurd h2 (by omega),
              fun j _ => rfl⟩
          · have := (hpref k (le_refl k) hlt hm).1
            omega
      · rw [if_neg hpin]
        by_cases hval : (s.desc k).valid = false
        · rw [if_pos hval]
          refine ⟨fun j _ => rfl, fun j _ => rfl, fun f' p' _ => rfl, fun f' p' h => h, ?_, ?_⟩
          · intro hok
            have := (hok k (le_refl k) (by omega) hm).2
            rw [hval] at this
            cases this
          · intro k0 hk0a hk0b hk0m hk0bad hpref
            rcases Nat.eq_or_lt_of_le hk0a with rfl | hlt
            · refine ⟨by rw [if_neg (by omega)], fun j h1 h2 _ => absurd h2 (by omega),
                fun j _ => rfl⟩
            · have := (hpref k (le_refl k) hlt hm).2
              rw [hval] at this
              cases this
        · replace hval : (s.desc k).valid = true := by
            simpa using hval
          rw [if_neg (by rw [hval]; intro hx; cases hx)]
          have hlk0 := hInv.2.2.1 k hkN hval
          rw [hm] at hlk0
          simp only [htLookupO] at hlk0
          have hswInv : Inv (if (s.desc k).dirty = true
              then setDesc s k { s.desc k with dirty := false } else s) := by
            by_cases hd : (s.desc k).dirty = true
            · rw [if_pos hd]
              refine Inv_mutate ?_ ?_ ?_ ?_ hInv
              · rfl
              · rfl
              · intro f
                by_cases hfe : f = k
                · subst hfe
                  simp [setDesc, updFn]
                · rw [setDesc_desc_ne _ _ _ hfe]
                  exact ⟨rfl, rfl, rfl⟩
              · intro f hf hv
                by_cases hfe : f = k
                · subst hfe
                  rw [hv] at hval
                  cases hval
                · rw [setDesc_desc_ne _ _ _ hfe]
                  exact (hInv.2.2.2 f hf hv).2
            · rw [if_neg hd]
              exact hInv
          set sw := if (s.desc k).dirty = true
              then setDesc s k { s.desc k with dirty := false } else s with hswdef
          have hswht : sw.hashTable = s.hashTable := by
            rw [hswdef]
            by_cases hd : (s.desc k).dirty = true
            · rw [if_pos hd]
              rfl
            · rw [if_neg hd]
          have hswN : sw.numBufs = s.numBufs := by
            rw [hswdef]
            by_cases hd : (s.desc k).dirty = true
            · rw [if_pos hd]
              rfl
            · rw [if_neg hd]
          have hswpool : sw.pool = s.pool := by
            rw [hswdef]
            by_cases hd : (s.desc k).dirty = true
            · rw [if_pos hd]
              rfl
            · rw [if_neg hd]
          have hswne : ∀ j, j ≠ k → sw.desc j = s.desc j := by
            intro j hj
            rw [hswdef]
            by_cases hd : (s.desc k).dirty = true
            · rw [if_pos hd]
              rw [setDesc_desc_ne _ _ _ hj]
            · rw [if_neg hd]
          have hlksw : htLookup sw.hashTable file (s.desc k).pageNo = some k := by
            rw [hswht]
            exact hlk0
          have hrem2 : htRemove sw.hashTable file (s.desc k).pageNo =
              some (sw.hashTable.filter (keyNe file (s.desc k).pageNo)) := htRemove_isSome hlksw
          rw [hrem2]
          set s2 := setDesc { sw with hashTable := sw.hashTable.filter (keyNe file (s.desc k).pageNo) } k ((sw.desc k).Clear) with hs2def
          have hs2ht : s2.hashTable = s.hashTable.filter (keyNe file (s.desc k).pageNo) := by
            rw [hs2def, setDesc_hashTable]
            rw [hswht]
          have hs2N : s2.numBufs = s.numBufs := by
            rw [hs2def, setDesc_numBufs]
            simpa using hswN
          have hs2pool : s2.pool = s.pool := by
            rw [hs2def, setDesc_pool]
            simpa using hswpool
          have hs2k : s2.desc k = (s.desc k).Clear := by
            rw [hs2def]
            simp [BufDesc.Clear]
          have hs2ne : ∀ j, j ≠ k → s2.desc j = s.desc j := by
            intro j hj
            rw [hs2def, setDesc_desc_ne _ _ _ hj]
            rw [show ({ sw with hashTable := sw.hashTable.filter (keyNe file (s.desc k).pageNo) } : BufState).desc j = sw.desc j from rfl]
            exact hswne j hj
          have hInv2 : Inv s2 := by
            refine clear_remove_inv hswInv hlksw ?_ ?_ ?_ ?_ ?_ ?_
            · rw [hs2N, hswN]
            · rw [hs2ht, hswht]
            · rw [hs2k]
              simp [BufDesc.Clear]
            · rw [hs2k]
              simp [BufDesc.Clear]
            · rw [hs2k]
              simp [BufDesc.Clear]
            · intro f hfe
              rw [hs2ne f hfe]
              exact (hswne f hfe).symm
          have hle2 : k + 1 + rem ≤ s2.numBufs := by
            rw [hs2N]
            omega
          obtain ⟨ih1, ih2, ih3, ih4, ih5, ih6⟩ := ih (k + 1) s2 file hInv2 hle2
          have evs1count : ∀ j, (if (s.desc k).dirty = true
                then [FEvent.write (s.desc k).file k (s.pool k)] else []).count
                (FEvent.write (some file) j (s.pool j)) =
              if j = k ∧ (s.desc k).dirty = true then 1 else 0 := by
            intro j
            by_cases hd : (s.desc k).dirty = true
            · rw [if_pos hd]
              by_cases hj : j = k
              · subst hj
                rw [if_pos ⟨rfl, hd⟩, hm]
                simp [List.count_singleton]
              · rw [if_neg (by tauto)]
                rw [List.count_eq_zero]
                intro hmem
                have hEq := List.mem_singleton.mp hmem
                injection hEq with e1 e2 e3
                exact hj e2
            · rw [if_neg hd, if_neg (by tauto)]
              rfl
          refine ⟨?_, ?_, ?_, ?_, ?_, ?_⟩
          · intro j hj
            have hjk : j ≠ k := by omega
            rw [show ((flushFrames file (k + 1) rem s2).1,
                (flushFrames file (k + 1) rem s2).2.1,
                (if (s.desc k).dirty = true
                  then [FEvent.write (s.desc k).file k (s.pool k)] else []) ++
                (flushFrames file (k + 1) rem s2).2.2).1 =
              (flushFrames file (k + 1) rem s2).1 from rfl]
            rw [ih1 j (by omega), hs2ne j hjk]
          · intro j hj
            by_cases hjk : j = k
            · subst hjk
              exact absurd hm hj
            · rw [show ((flushFrames file (k + 1) rem s2).1,
                  (flushFrames file (k + 1) rem s2).2.1,
                  (if (s.desc k).dirty = true
                    then [FEvent.write (s.desc k).file k (s.pool k)] else []) ++
                  (flushFrames file (k + 1) rem s2).2.2).1 =
                (flushFrames file (k + 1) rem s2).1 from rfl]
              rw [ih2 j (by rw [hs2ne j hjk]; exact hj), hs2ne j hjk]
          · intro f' p' hf'
            rw [show ((flushFrames file (k + 1) rem s2).1,
                (flushFrames file (k + 1) rem s2).2.1,
                (if (s.desc k).dirty = true
                  then [FEvent.write (s.desc k).file k (s.pool k)] else []) ++
                (flushFrames file (k + 1) rem s2).2.2).1 =
              (flushFrames file (k + 1) rem s2).1 from rfl]
            rw [ih3 f' p' hf', hs2ht]
            exact htLookup_filterKey_ne s.hashTable file (s.desc k).pageNo
              (by intro hx; exact hf' hx.1)
          · intro f' p' hnone
            rw [show ((flushFrames file (k + 1) rem s2).1,
                (flushFrames file (k + 1) rem s2).2.1,
                (if (s.desc k).dirty = true
                  then [FEvent.write (s.desc k).file k (s.pool k)] else []) ++
                (flushFrames file (k + 1) rem s2).2.2).1 =
              (flushFrames file (k + 1) rem s2).1 from rfl]
            refine ih4 f' p' ?_
            rw [hs2ht]
            exact htLookup_none_of_filter _ hnone
          · intro hok
            have hok2 : ∀ j, k + 1 ≤ j → j < k + 1 + rem → (s2.desc j).file = some file →
                (s2.desc j).pinCnt = 0 ∧ (s2.desc j).valid = true := by
              intro j h1 h2 h3
              have hjk : j ≠ k := by omega
              rw [hs2ne j hjk] at h3 ⊢
              exact hok j (by omega) (by omega) h3
            obtain ⟨ihe, ihproc, ihcount⟩ := ih5 hok2
            refine ⟨ihe, ?_, ?_⟩
            · intro j h1 h2 h3
              by_cases hjk : j = k
              · rw [hjk]
                constructor
                · rw [show ((flushFrames file (k + 1) rem s2).1,
                      (flushFrames file (k + 1) rem s2).2.1,
                      (if (s.desc k).dirty = true
                        then [FEvent.write (s.desc k).file k (s.pool k)] else []) ++
                      (flushFrames file (k + 1) rem s2).2.2).1 =
                    (flushFrames file (k + 1) rem s2).1 from rfl]
                  rw [ih1 k (by omega), hs2k]
                · rw [show ((flushFrames file (k + 1) rem s2).1,
                      (flushFrames file (k + 1) rem s2).2.1,
                      (if (s.desc k).dirty = true
                        then [FEvent.write (s.desc k).file k (s.pool k)] else []) ++
                      (flushFrames file (k + 1) rem s2).2.2).1 =
                    (flushFrames file (k + 1) rem s2).1 from rfl]
                  refine ih4 file (s.desc k).pageNo ?_
                  rw [hs2ht]
                  exact htLookup_filterKey_self s.hashTable file (s.desc k).pageNo
              · have h3' : (s2.desc j).file = some file := by
                  rw [hs2ne j hjk]
                  exact h3
                have hthis := ihproc j (by omega) (by omega) h3'
                rw [hs2ne j hjk] at hthis
                exact hthis
            · intro j
              rw [show ((flushFrames file (k + 1) rem s2).1,
                  (flushFrames file (k + 1) rem s2).2.1,
                  (if (s.desc k).dirty = true
                    then [FEvent.write (s.desc k).file k (s.pool k)] else []) ++
                  (flushFrames file (k + 1) rem s2).2.2).2.2 =
                (if (s.desc k).dirty = true
                  then [FEvent.write (s.desc k).file k (s.pool k)] else []) ++
                (flushFrames file (k + 1) rem s2).2.2 from rfl]
              rw [List.count_append, evs1count j]
              have hcnt := ihcount j
              rw [hs2pool] at hcnt
              rw [hcnt]
              by_cases hjk : j = k
              · subst hjk
                have hmid : ¬(j + 1 ≤ j ∧ j < j + 1 + rem ∧ (s2.desc j).file = some file ∧
                    (s2.desc j).dirty = true) := by omega
                rw [if_neg hmid]
                by_cases hd : (s.desc j).dirty = true
                · rw [if_pos ⟨rfl, hd⟩, if_pos ⟨le_refl j, by omega, hm, hd⟩]
                · rw [if_neg (by tauto), if_neg (by tauto)]
              · rw [if_neg (by tauto)]
                have hiff : (k + 1 ≤ j ∧ j < k + 1 + rem ∧ (s2.desc j).file = some file ∧
                    (s2.desc j).dirty = true) ↔ (k ≤ j ∧ j < k + (rem + 1) ∧
                    (s.desc j).file = some file ∧ (s.desc j).dirty = true) := by
                  rw [hs2ne j hjk]
                  constructor
                  · rintro ⟨a, b, c, d⟩
                    exact ⟨by omega, by omega, c, d⟩
                  · rintro ⟨a, b, c, d⟩
                    refine ⟨by omega, by omega, c, d⟩
                rw [if_congr hiff rfl rfl]
                omega
          · intro k0 hk0a hk0b hk0m hk0bad hpref
            have hk0k : k0 ≠ k := by
              intro hx
              subst hx
              rcases hk0bad with hb | hb
              · omega
              · rw [hb] at hval
                cases hval
            have hk0a' : k + 1 ≤ k0 := by omega
            have hpref2 : ∀ j, k + 1 ≤ j → j < k0 → (s2.desc j).file = some file →
                (s2.desc j).pinCnt = 0 ∧ (s2.desc j).valid = true := by
              intro j h1 h2 h3
              have hjk : j ≠ k := by omega
              rw [hs2ne j hjk] at h3 ⊢
              exact hpref j (by omega) h2 h3
            have hk0m2 : (s2.desc k0).file = some file := by
              rw [hs2ne k0 hk0k]
              exact hk0m
            have hk0bad2 : (s2.desc k0).pinCnt ≠ 0 ∨ (s2.desc k0).valid = false := by
              rw [hs2ne k0 hk0k]
              exact hk0bad
            obtain ⟨ihe, ihproc, ihsuf⟩ := ih6 k0 hk0a' (by omega) hk0m2 hk0bad2 hpref2
            rw [hs2ne k0 hk0k] at ihe
            refine ⟨ihe, ?_, ?_⟩
            · intro j h1 h2 h3
              by_cases hjk : j = k
              · rw [hjk]
                constructor
                · rw [show ((flushFrames file (k + 1) rem s2).1,
                      (flushFrames file (k + 1) rem s2).2.1,
                      (if (s.desc k).dirty = true
                        then [FEvent.write (s.desc k).file k (s.pool k)] else []) ++
                      (flushFrames file (k + 1) rem s2).2.2).1 =
                    (flushFrames file (k + 1) rem s2).1 from rfl]
                  rw [ih1 k (by omega), hs2k]
                · rw [show ((flushFrames file (k + 1) rem s2).1,
                      (flushFrames file (k + 1) rem s2).2.1,
                      (if (s.desc k).dirty = true
                        then [FEvent.write (s.desc k).file k (s.pool k)] else []) ++
                      (flushFrames file (k + 1) rem s2).2.2).1 =
                    (flushFrames file (k + 1) rem s2).1 from rfl]
                  refine ih4 file (s.desc k).pageNo ?_
                  rw [hs2ht]
                  exact htLookup_filterKey_self s.hashTable file (s.desc k).pageNo
              · have h3' : (s2.desc j).file = some file := by
                  rw [hs2ne j hjk]
                  exact h3
                have hthis := ihproc j (by omega) h2 h3'
                rw [hs2ne j hjk] at hthis
                exact hthis
            · intro j hj
              rw [show ((flushFrames file (k + 1) rem s2).1,
                  (flushFrames file (k + 1) rem s2).2.1,
                  (if (s.desc k).dirty = true
                    then [FEvent.write (s.desc k).file k (s.pool k)] else []) ++
                  (flushFrames file (k + 1) rem s2).2.2).1 =
                (flushFrames file (k + 1) rem s2).1 from rfl]
              rw [ihsuf j hj, hs2ne j (by omega)]
    · simp only [flushFrames]
      rw [if_neg hm]
      obtain ⟨ih1, ih2, ih3, ih4, ih5, ih6⟩ := ih (k + 1) s file hInv (by omega)
      refine ⟨?_, ?_, ih3, ih4, ?_, ?_⟩
      · intro j hj
        by_cases hjk : j = k
        · subst hjk
          exact ih2 j hm
        · exact ih1 j (by omega)
      · exact ih2
      · intro hok
        obtain ⟨ihe, ihproc, ihcount⟩ := ih5 (fun j h1 h2 h3 => hok j (by omega) (by omega) h3)
        refine ⟨ihe, ?_, ?_⟩
        · intro j h1 h2 h3
          by_cases hjk : j = k
          · subst hjk
            exact absurd h3 hm
          · exact ihproc j (by omega) (by omega) h3
        · intro j
          rw [ihcount j]
          by_cases hjk : j = k
          · subst hjk
            rw [if_neg (by omega), if_neg (by tauto)]
          · have hiff : (k + 1 ≤ j ∧ j < k + 1 + rem ∧ (s.desc j).file = some file ∧
                (s.desc j).dirty = true) ↔ (k ≤ j ∧ j < k + (rem + 1) ∧
                (s.desc j).file = some file ∧ (s.desc j).dirty = true) := by
              constructor
              · rintro ⟨a, b, c, d⟩
                exact ⟨by omega, by omega, c, d⟩
              · rintro ⟨a, b, c, d⟩
                refine ⟨by omega, by omega, c, d⟩
            rw [if_congr hiff rfl rfl]
      · intro k0 hk0a hk0b hk0m hk0bad hpref
        have hk0k : k0 ≠ k := by
          intro hx
          subst hx
          exact hm hk0m
        obtain ⟨ihe, ihproc, ihsuf⟩ := ih6 k0 (by omega) (by omega) hk0m hk0bad
          (fun j h1 h2 h3 => hpref j (by omega) h2 h3)
        refine ⟨ihe, ?_, ihsuf⟩
        intro j h1 h2 h3
        by_cases hjk : j = k
        · subst hjk
          exact absurd h3 hm
        · exact ihproc j (by omega) h2 h3

/-! ## The claims -/

/-- C1: In every reachable pool state, a valid frame whose descriptor has a
positive pin count is never chosen as the eviction victim by `allocBuf`: its
page is never written back by the sweep, its index entry is never removed,
its descriptor is never cleared (every field except possibly the refbit is
kept), and its frame id is never returned as the reclaimed frame — whether
allocation succeeds or throws pool exhaustion. -/
theorem pinned_frame_never_evicted {s : BufState} (hreach : Reachable s) (f : Nat)
    (hf : f < s.numBufs) (hv : (s.desc f).valid = true) (hp : 0 < (s.desc f).pinCnt) :
    (∀ p s' evs, allocBuf s = .ok p s' evs →
      p ≠ f ∧ (∀ fo c, FEvent.write fo f c ∉ evs) ∧
      descCore (s'.desc f) = descCore (s.desc f) ∧
      htLookupO s'.hashTable (s.desc f).file (s.desc f).pageNo = some f) ∧
    (∀ s', allocBuf s = .exhausted s' →
      descCore (s'.desc f) = descCore (s.desc f) ∧
      htLookupO s'.hashTable (s.desc f).file (s.desc f).pageNo = some f) :=
  allocBufFuel_pinned_safe 2 (reachable_inv hreach) hf hv hp

/-- C2: When the sweep of `allocBuf` reaches a frame: if the frame is not
valid it is returned immediately, with no write-back and no index change;
if it is valid with a cleared reference bit and pin count zero (and its
(file, pageNumber) entry is registered, as in every reachable state), it is
evicted: its page is written to its owning file exactly once iff dirty, its
index entry is removed, its descriptor is cleared so the dirty bit does not
survive, and its frame id is returned. -/
theorem sweep_visit_spec (s : BufState) (i : Nat) :
    ((s.desc (vpos s)).valid = false →
      sweep s (i + 1) = .found (vpos s) (advanceClock s) [] ∧
      (advanceClock s).hashTable = s.hashTable ∧ (advanceClock s).desc = s.desc) ∧
    (∀ fi id, (s.desc (vpos s)).valid = true → (s.desc (vpos s)).refbit = false →
      (s.desc (vpos s)).pinCnt = 0 → (s.desc (vpos s)).file = some fi →
      htLookup s.hashTable fi (s.desc (vpos s)).pageNo = some id →
      ∃ s', sweep s (i + 1) = .found (vpos s) s'
          (if (s.desc (vpos s)).dirty = true
            then [FEvent.write (some fi) (vpos s) (s.pool (vpos s))] else []) ∧
        s'.desc (vpos s) = (s.desc (vpos s)).Clear ∧
        (s'.desc (vpos s)).dirty = false ∧
        htLookup s'.hashTable fi (s.desc (vpos s)).pageNo = none ∧
        (∀ f, f ≠ vpos s → s'.desc f = s.desc f) ∧ s'.pool = s.pool) := by
  constructor
  · intro hv
    rw [sweep, sweepStep_invalid hv]
    exact ⟨rfl, rfl, rfl⟩
  · intro fi id hv hr hp hf hlk
    have hrem := htRemove_isSome hlk
    refine ⟨setDesc { advanceClock s with
        hashTable := s.hashTable.filter (keyNe fi (s.desc (vpos s)).pageNo) } (vpos s)
        ((s.desc (vpos s)).Clear), ?_, ?_, ?_, ?_, ?_, ?_⟩
    · rw [sweep, sweepStep_evict hv hr hp hf hrem]
      unfold evictEvs
      rw [hf]
    · simp
    · simp [BufDesc.Clear]
    · exact htLookup_filterKey_self s.hashTable fi (s.desc (vpos s)).pageNo
    · intro f hfe
      rw [setDesc_desc_ne _ _ _ hfe]
      rfl
    · rfl

/-- C3: `allocBuf` throws `BufferExceededException` only when every frame
has a non-zero pin count, and succeeds whenever some frame is unpinned;
consequently with every frame valid and pinned, `readPage` of a non-resident
page fails with the pool-exhausted error, and after releasing one pin the
retried fetch succeeds. -/
theorem pool_exhaustion_iff_all_pinned :
    (∀ s s' : BufState, allocBuf s = .exhausted s' →
      ∀ f, f < s.numBufs → (s.desc f).pinCnt ≠ 0) ∧
    (∀ s : BufState, ∀ f0, f0 < s.numBufs → (s.desc f0).pinCnt = 0 →
      ∃ p s' evs, allocBuf s = .ok p s' evs) ∧
    (∀ (s : BufState) (file : FileId) (pageNo : PageId) (content : Page),
      (∀ f, f < s.numBufs → (s.desc f).valid = true ∧ (s.desc f).pinCnt ≠ 0) →
      htLookup s.hashTable file pageNo = none →
      (readPage s file pageNo content).err = some Err.bufferExceeded) ∧
    (∀ (s : BufState) (file : FileId) (pageNo : PageId) (content : Page)
        (rfile : FileId) (rpage : PageId) (id : Nat),
      htLookup s.hashTable rfile rpage = some id → id < s.numBufs →
      (s.desc id).pinCnt = 1 → htLookup s.hashTable file pageNo = none →
      (readPage ((unPinPage s rfile rpage false).1) file pageNo content).err = none ∧
      ((readPage ((unPinPage s rfile rpage false).1) file pageNo content).ret).isSome = true)
    := by
  refine ⟨fun s s' h => allocBufFuel_exhausted_pins 2 h,
    fun s f0 h1 h2 => allocBufFuel_ok_of_unpinned f0 h1 h2, ?_, ?_⟩
  · intro s file pageNo content hall hlk
    obtain ⟨s', hex⟩ := allocBuf_exhausted_of_allpinned hall
    simp only [readPage, hlk, hex]
  · intro s file pageNo content rfile rpage id hlkr hidN hpin1 hlk
    simp only [unPinPage, hlkr]
    rw [if_neg (by omega)]
    have hpin0 : ((setDesc s id { s.desc id with pinCnt := (s.desc id).pinCnt - 1, dirty := if false = true then true else (s.desc id).dirty }).desc id).pinCnt = 0 := by
      simp [setDesc, updFn]
      omega
    obtain ⟨p, s', evs, hok⟩ := allocBufFuel_ok_of_unpinned id (by simpa using hidN) hpin0
    have hlk1 : htLookup (setDesc s id { s.desc id with pinCnt := (s.desc id).pinCnt - 1, dirty := if false = true then true else (s.desc id).dirty }).hashTable file pageNo = none := by
      simpa using hlk
    simp only [readPage, hlk1]
    rw [show allocBuf (setDesc s id { s.desc id with pinCnt := (s.desc id).pinCnt - 1, dirty := if false = true then true else (s.desc id).dirty }) = allocBufFuel 2 _ from rfl]
    rw [hok]
    exact ⟨rfl, rfl⟩

/-- C4: `allocBuf` always terminates: any fuel bound of at least two outer
passes computes the same result, that result is always a returned frame or
the pool-exhausted error (never the out-of-fuel marker), and whenever at
least one frame is unpinned it returns a frame within the two passes. -/
theorem allocBuf_terminates (s : BufState) (n : Nat) (hn : 2 ≤ n) :
    allocBufFuel n s = allocBuf s ∧
    ((∃ p s' evs, allocBuf s = .ok p s' evs) ∨ (∃ s', allocBuf s = .exhausted s')) ∧
    (∀ s0, allocBufFuel n s ≠ .spin s0) ∧
    (∀ f0, f0 < s.numBufs → (s.desc f0).pinCnt = 0 →
      ∃ p s' evs, allocBuf s = .ok p s' evs) := by
  refine ⟨allocBuf_eq_fuel hn s, allocBuf_total s, ?_,
    fun f0 h1 h2 => allocBufFuel_ok_of_unpinned f0 h1 h2⟩
  intro s0 hspin
  rw [allocBuf_eq_fuel hn s] at hspin
  rcases allocBuf_total s with ⟨p, s', evs, heq⟩ | ⟨s', heq⟩ <;> rw [heq] at hspin <;>
    cases hspin

/-- C5: `readPage` on an index hit increments that frame's pin count by
exactly one, sets its reference bit, changes nothing else in the pool, and
returns a handle to that frame's content; on a miss it reads the page from
the file collaborator, obtains a frame from `allocBuf`, copies the content
into the frame, inserts (file, pageNumber) → frameId into the index,
populates the descriptor via `Set` (giving pin count 1 — the frame's pin
count was 0, so exactly one increment), sets the reference bit and returns a
handle to that frame. -/
theorem readPage_spec (s : BufState) (hInv : Inv s) (file : FileId) (pageNo : PageId)
    (content : Page) :
    (∀ id, htLookup s.hashTable file pageNo = some id →
      (readPage s file pageNo content).ret = some id ∧
      (readPage s file pageNo content).err = none ∧
      (readPage s file pageNo content).evs = [] ∧
      ((readPage s file pageNo content).state.desc id).pinCnt = (s.desc id).pinCnt + 1 ∧
      ((readPage s file pageNo content).state.desc id).refbit = true ∧
      ((readPage s file pageNo content).state.desc id).valid = (s.desc id).valid ∧
      ((readPage s file pageNo content).state.desc id).dirty = (s.desc id).dirty ∧
      ((readPage s file pageNo content).state.desc id).file = (s.desc id).file ∧
      ((readPage s file pageNo content).state.desc id).pageNo = (s.desc id).pageNo ∧
      (∀ g, g ≠ id → (readPage s file pageNo content).state.desc g = s.desc g) ∧
      (readPage s file pageNo content).state.hashTable = s.hashTable) ∧
    (htLookup s.hashTable file pageNo = none →
      ∀ p s1 evs, allocBuf s = .ok p s1 evs →
      (readPage s file pageNo content).ret = some p ∧
      (readPage s file pageNo content).err = none ∧
      (readPage s file pageNo content).evs = FEvent.read file pageNo :: evs ∧
      (readPage s file pageNo content).state.pool p = content ∧
      htLookup (readPage s file pageNo content).state.hashTable file pageNo = some p ∧
      (readPage s file pageNo content).state.desc p = { file := some file, pageNo := pageNo, valid := true, dirty := false, refbit := true, pinCnt := 1 } ∧
      (s.desc p).pinCnt = 0) := by
  constructor
  · intro id hl
    simp only [readPage, hl]
    refine ⟨by trivial, by trivial, by trivial, ?_, ?_, ?_, ?_, ?_, ?_, ?_, by trivial⟩
    · simp [setDesc, updFn]
    · simp [setDesc, updFn]
    · simp [setDesc, updFn]
    · simp [setDesc, updFn]
    · simp [setDesc, updFn]
    · simp [setDesc, updFn]
    · intro g hg
      rw [setDesc_desc_ne _ _ _ hg, setDesc_desc_ne _ _ _ hg]
  · intro hl p s1 evs halloc
    simp only [readPage, hl, halloc]
    refine ⟨by trivial, by trivial, by trivial, ?_, ?_, ?_, ?_⟩
    · simp [setDesc, updFn]
    · exact htLookup_insert_self _ file pageNo p
    · simp [setDesc, updFn, BufDesc.Set]
    · have hpins := (allocBufFuel_st_core 2 s).2.2 p
      rw [show allocBufFuel 2 s = allocBuf s from rfl, halloc] at hpins
      simp only [AllocRes.st] at hpins
      rw [← hpins]
      obtain ⟨_, _, _, hpin0, _⟩ := allocBufFuel_ok_inv 2 hInv halloc
      exact hpin0

/-- C6: `unPinPage` is a silent no-op when (file, pageNumber) is absent from
the index; fails with `PageNotPinnedException` leaving all state unchanged
when the frame's pin count is already zero; otherwise decrements the pin
count by exactly one and sets the dirty bit iff asked — a release with the
dirty flag false never clears an already-set dirty bit. -/
theorem unPinPage_spec (s : BufState) (file : FileId) (pageNo : PageId) (d : Bool) :
    (htLookup s.hashTable file pageNo = none → unPinPage s file pageNo d = (s, none)) ∧
    (∀ id, htLookup s.hashTable file pageNo = some id → (s.desc id).pinCnt = 0 →
      unPinPage s file pageNo d = (s, some (Err.pageNotPinned file pageNo id))) ∧
    (∀ id, htLookup s.hashTable file pageNo = some id → 0 < (s.desc id).pinCnt →
      (unPinPage s file pageNo d).2 = none ∧
      (((unPinPage s file pageNo d).1).desc id).pinCnt = (s.desc id).pinCnt - 1 ∧
      (((unPinPage s file pageNo d).1).desc id).dirty = (d || (s.desc id).dirty) ∧
      ((s.desc id).dirty = true → (((unPinPage s file pageNo d).1).desc id).dirty = true) ∧
      (((unPinPage s file pageNo d).1).desc id).valid = (s.desc id).valid ∧
      (((unPinPage s file pageNo d).1).desc id).file = (s.desc id).file ∧
      (((unPinPage s file pageNo d).1).desc id).pageNo = (s.desc id).pageNo ∧
      (((unPinPage s file pageNo d).1).desc id).refbit = (s.desc id).refbit ∧
      (∀ g, g ≠ id → ((unPinPage s file pageNo d).1).desc g = s.desc g) ∧
      ((unPinPage s file pageNo d).1).hashTable = s.hashTable) := by
  refine ⟨?_, ?_, ?_⟩
  · intro hl
    simp only [unPinPage, hl]
  · intro id hl hz
    simp only [unPinPage, hl]
    rw [if_pos hz]
  · intro id hl hpos
    simp only [unPinPage, hl]
    rw [if_neg (by omega)]
    refine ⟨rfl, ?_, ?_, ?_, ?_, ?_, ?_, ?_, ?_, rfl⟩
    · simp [setDesc, updFn]
    · cases d <;> simp [setDesc, updFn]
    · intro hd
      cases d <;> simp [setDesc, updFn, hd]
    · simp [setDesc, updFn]
    · simp [setDesc, updFn]
    · simp [setDesc, updFn]
    · simp [setDesc, updFn]
    · intro g hg
      rw [setDesc_desc_ne _ _ _ hg]

/-- C7: `flushFile`, scanning the frames in frame order: frames owned by
other files keep their descriptors and index entries; if every frame owned
by the given file is unpinned and valid, the call succeeds, writing each
dirty owned page back exactly once, deregistering every owned frame and
clearing its descriptor; if the scan meets an owned frame that is pinned it
fails with `PagePinnedException` naming the file, page and frame (or with
`BadBufferException` when the frame is invalid), the owned frames before the
failing frame remain flushed and cleared, and the frames from the failing
one on are unchanged — no rollback. -/
theorem flushFile_spec (s : BufState) (hInv : Inv s) (file : FileId) :
    (∀ j, (s.desc j).file ≠ some file → (flushFile s file).1.desc j = s.desc j) ∧
    (∀ f' p', f' ≠ file →
      htLookup (flushFile s file).1.hashTable f' p' = htLookup s.hashTable f' p') ∧
    ((∀ j, j < s.numBufs → (s.desc j).file = some file →
        (s.desc j).pinCnt = 0 ∧ (s.desc j).valid = true) →
      (flushFile s file).2.1 = none ∧
      (∀ j, j < s.numBufs → (s.desc j).file = some file →
        (flushFile s file).1.desc j = (s.desc j).Clear ∧
        htLookup (flushFile s file).1.hashTable file (s.desc j).pageNo = none) ∧
      (∀ j, ((flushFile s file).2.2).count (FEvent.write (some file) j (s.pool j)) =
        if j < s.numBufs ∧ (s.desc j).file = some file ∧ (s.desc j).dirty = true
        then 1 else 0)) ∧
    (∀ k0, k0 < s.numBufs → (s.desc k0).file = some file →
      ((s.desc k0).pinCnt ≠ 0 ∨ (s.desc k0).valid = false) →
      (∀ j, j < k0 → (s.desc j).file = some file →
        (s.desc j).pinCnt = 0 ∧ (s.desc j).valid = true) →
      (flushFile s file).2.1 = some (if 0 < (s.desc k0).pinCnt
          then Err.pagePinned file (s.desc k0).pageNo k0
          else Err.badBuffer k0 (s.desc k0).dirty (s.desc k0).valid (s.desc k0).refbit) ∧
      (∀ j, j < k0 → (s.desc j).file = some file →
        (flushFile s file).1.desc j = (s.desc j).Clear ∧
        htLookup (flushFile s file).1.hashTable file (s.desc j).pageNo = none) ∧
      (∀ j, k0 ≤ j → (flushFile s file).1.desc j = s.desc j)) := by
  unfold flushFile
  obtain ⟨h1, h2, h3, h4, h5, h6⟩ := flushFrames_spec s.numBufs 0 s file hInv (by omega)
  refine ⟨h2, h3, ?_, ?_⟩
  · intro hok
    obtain ⟨he, hproc, hcount⟩ := h5 (fun j _ hj hm => hok j (by omega) hm)
    refine ⟨he, fun j hj hm => hproc j (by omega) (by omega) hm, ?_⟩
    intro j
    rw [hcount j]
    have hiff : (0 ≤ j ∧ j < 0 + s.numBufs ∧ (s.desc j).file = some file ∧
        (s.desc j).dirty = true) ↔ (j < s.numBufs ∧ (s.desc j).file = some file ∧
        (s.desc j).dirty = true) := by
      constructor
      · rintro ⟨a, b, c, e⟩
        exact ⟨by omega, c, e⟩
      · rintro ⟨b, c, e⟩
        exact ⟨by omega, by omega, c, e⟩
    rw [if_congr hiff rfl rfl]
  · intro k0 hk0 hm hbad hpref
    obtain ⟨he, hproc, hsuf⟩ := h6 k0 (by omega) (by omega) hm hbad
      (fun j _ hj hmj => hpref j hj hmj)
    exact ⟨he, fun j hj hmj => hproc j (by omega) hj hmj, hsuf⟩

/-- C8: `disposePage` always delegates the page removal to the file
collaborator by invoking `deletePage`; if the page is resident, its
descriptor is cleared and its index entry removed regardless of the pin
count (no pin hypothesis is needed); if not resident, the pool state is
unchanged. -/
theorem disposePage_spec (s : BufState) (file : FileId) (pageNo : PageId) :
    ((disposePage s file pageNo).2 = [FEvent.deleteP file pageNo]) ∧
    (∀ id, htLookup s.hashTable file pageNo = some id →
      (disposePage s file pageNo).1.desc id = (s.desc id).Clear ∧
      htLookup (disposePage s file pageNo).1.hashTable file pageNo = none ∧
      (∀ g, g ≠ id → (disposePage s file pageNo).1.desc g = s.desc g) ∧
      (∀ f' p', ¬(f' = file ∧ p' = pageNo) →
        htLookup (disposePage s file pageNo).1.hashTable f' p' =
          htLookup s.hashTable f' p')) ∧
    (htLookup s.hashTable file pageNo = none → (disposePage s file pageNo).1 = s) := by
  refine ⟨?_, ?_, ?_⟩
  · rcases hl : htLookup s.hashTable file pageNo with _ | id
    · simp only [disposePage, hl]
    · have hrem : htRemove s.hashTable file pageNo =
          some (s.hashTable.filter (keyNe file pageNo)) := htRemove_isSome hl
      simp only [disposePage, hl, setDesc_hashTable, hrem]
  · intro id hl
    have hrem : htRemove s.hashTable file pageNo =
        some (s.hashTable.filter (keyNe file pageNo)) := htRemove_isSome hl
    simp only [disposePage, hl, setDesc_hashTable, hrem]
    refine ⟨by simp, htLookup_filterKey_self s.hashTable file pageNo, ?_, ?_⟩
    · intro g hg
      rw [show ({ setDesc s id ((s.desc id).Clear) with hashTable := s.hashTable.filter (keyNe file pageNo) } : BufState).desc g = (setDesc s id ((s.desc id).Clear)).desc g from rfl]
      rw [setDesc_desc_ne _ _ _ hg]
    · intro f' p' hne
      exact htLookup_filterKey_ne s.hashTable file pageNo hne
  · intro hl
    simp only [disposePage, hl]

/-- C9: after any sequence of the public operations starting from a freshly
constructed pool, at most one frame maps to a given (file, pageNumber) —
the index keys are pairwise distinct and determine the frame — and a frame's
descriptor is valid iff its (file, pageNumber) is registered in the index
mapping back to that frame: the index agrees exactly with the set of valid
descriptors. -/
theorem index_unique_and_agrees {s : BufState} (hreach : Reachable s) :
    s.hashTable.Pairwise (fun a b => a.1 ≠ b.1) ∧
    (∀ e1 ∈ s.hashTable, ∀ e2 ∈ s.hashTable, e1.1 = e2.1 → e1.2 = e2.2) ∧
    (∀ f, f < s.numBufs → ((s.desc f).valid = true ↔
      htLookupO s.hashTable (s.desc f).file (s.desc f).pageNo = some f)) := by
  have hInv := reachable_inv hreach
  refine ⟨hInv.1, pairwise_key_unique hInv.1, ?_⟩
  intro f hf
  constructor
  · exact hInv.2.2.1 f hf
  · intro hlk
    rcases hfo : (s.desc f).file with _ | fi
    · rw [hfo] at hlk
      simp only [htLookupO] at hlk
      cases hlk
    · rw [hfo] at hlk
      simp only [htLookupO] at hlk
      exact (hInv.2.1 _ (htLookup_some_mem hlk)).2.1

/-- C10: in `allocBuf`'s eviction branch (visited frame valid, unreferenced,
unpinned), the index removal and the descriptor `Clear` happen only when the
victim's file pointer is non-null and the index remove does not signal
not-found: with a null file pointer nothing is removed or cleared; when the
remove raises not-found the exception is silently swallowed, `Clear` is
skipped, the frame id is still returned, and the descriptor remains marked
valid with the old (file, pageNumber) identity and dirty bit; only when the
remove succeeds are the entry removed and the descriptor cleared. -/
theorem evict_branch_anomaly (s : BufState) (i : Nat)
    (hv : (s.desc (vpos s)).valid = true) (hr : (s.desc (vpos s)).refbit = false)
    (hp : (s.desc (vpos s)).pinCnt = 0) :
    ((s.desc (vpos s)).file = none →
      sweep s (i + 1) = .found (vpos s) (advanceClock s) (evictEvs s (vpos s)) ∧
      (advanceClock s).desc (vpos s) = s.desc (vpos s) ∧
      (advanceClock s).hashTable = s.hashTable) ∧
    (∀ fi, (s.desc (vpos s)).file = some fi →
      htLookup s.hashTable fi (s.desc (vpos s)).pageNo = none →
      sweep s (i + 1) = .found (vpos s) (advanceClock s) (evictEvs s (vpos s)) ∧
      ((advanceClock s).desc (vpos s)).valid = true ∧
      ((advanceClock s).desc (vpos s)).file = some fi ∧
      ((advanceClock s).desc (vpos s)).pageNo = (s.desc (vpos s)).pageNo ∧
      ((advanceClock s).desc (vpos s)).dirty = (s.desc (vpos s)).dirty ∧
      (advanceClock s).hashTable = s.hashTable) ∧
    (∀ fi id, (s.desc (vpos s)).file = some fi →
      htLookup s.hashTable fi (s.desc (vpos s)).pageNo = some id →
      ∃ s', sweep s (i + 1) = .found (vpos s) s' (evictEvs s (vpos s)) ∧
        s'.desc (vpos s) = (s.desc (vpos s)).Clear ∧
        s'.hashTable = s.hashTable.filter (keyNe fi (s.desc (vpos s)).pageNo)) := by
  refine ⟨?_, ?_, ?_⟩
  · intro hf
    rw [sweep, sweepStep_noFile hv hr hp hf]
    exact ⟨rfl, rfl, rfl⟩
  · intro fi hf hmiss
    have hrem : htRemove s.hashTable fi (s.desc (vpos s)).pageNo = none := by
      unfold htRemove
      rw [hmiss]
    rw [sweep, sweepStep_removeMiss hv hr hp hf hrem]
    exact ⟨rfl, hv, hf, rfl, rfl, rfl⟩
  · intro fi id hf hlk
    have hrem := htRemove_isSome hlk
    exact ⟨_, by rw [sweep, sweepStep_evict hv hr hp hf hrem], by simp, rfl⟩

/-! ## Witnesses -/

/-- Witness for C1 at a concrete reachable three-frame pool with frame 1
valid and pinned. -/
theorem pinned_frame_never_evicted_witness :
    (∀ p s' evs, allocBuf demo3r = .ok p s' evs →
      p ≠ 1 ∧ (∀ fo c, FEvent.write fo 1 c ∉ evs) ∧
      descCore (s'.desc 1) = descCore (demo3r.desc 1) ∧
      htLookupO s'.hashTable (demo3r.desc 1).file (demo3r.desc 1).pageNo = some 1) ∧
    (∀ s', allocBuf demo3r = .exhausted s' →
      descCore (s'.desc 1) = descCore (demo3r.desc 1) ∧
      htLookupO s'.hashTable (demo3r.desc 1).file (demo3r.desc 1).pageNo = some 1) :=
  pinned_frame_never_evicted
    (Reachable.release 1 10 false (Reachable.fetch 1 12 102 (Reachable.fetch 1 11 101
      (Reachable.fetch 1 10 100 (Reachable.init 3))))) 1 (by decide) (by decide) (by decide)

/-- Witness for C2: the invalid branch at a fresh two-frame pool and the
eviction branch at a concrete dirty resident frame. -/
theorem sweep_visit_spec_witness :
    (sweep (initState 2) 1 = .found (vpos (initState 2)) (advanceClock (initState 2)) [] ∧
      (advanceClock (initState 2)).hashTable = (initState 2).hashTable ∧
      (advanceClock (initState 2)).desc = (initState 2).desc) ∧
    (∃ s', sweep evictDemo 1 = .found (vpos evictDemo) s'
        (if (evictDemo.desc (vpos evictDemo)).dirty = true
          then [FEvent.write (some 3) (vpos evictDemo) (evictDemo.pool (vpos evictDemo))]
          else []) ∧
      s'.desc (vpos evictDemo) = (evictDemo.desc (vpos evictDemo)).Clear ∧
      (s'.desc (vpos evictDemo)).dirty = false ∧
      htLookup s'.hashTable 3 (evictDemo.desc (vpos evictDemo)).pageNo = none ∧
      (∀ f, f ≠ vpos evictDemo → s'.desc f = evictDemo.desc f) ∧
      s'.pool = evictDemo.pool) :=
  ⟨(sweep_visit_spec (initState 2) 0).1 (by decide),
   (sweep_visit_spec evictDemo 0).2 3 0 (by decide) (by decide) (by decide) (by decide)
     (by decide)⟩

/-- Witness for C3: with all three frames pinned the fetch of a non-resident
page fails with the pool-exhausted error; after releasing one pin the retry
succeeds. -/
theorem pool_exhaustion_iff_all_pinned_witness :
    (readPage demo3 1 14 104).err = some Err.bufferExceeded ∧
    (readPage ((unPinPage demo3 1 10 false).1) 1 14 104).err = none ∧
    ((readPage ((unPinPage demo3 1 10 false).1) 1 14 104).ret).isSome = true :=
  ⟨pool_exhaustion_iff_all_pinned.2.2.1 demo3 1 14 104 (by decide) (by decide),
   (pool_exhaustion_iff_all_pinned.2.2.2 demo3 1 14 104 1 10 0 (by decide) (by decide)
     (by decide) (by decide)).1,
   (pool_exhaustion_iff_all_pinned.2.2.2 demo3 1 14 104 1 10 0 (by decide) (by decide)
     (by decide) (by decide)).2⟩

/-- Witness for C4 at fuel five on a concrete pool. -/
theorem allocBuf_terminates_witness :
    allocBufFuel 5 demo3r = allocBuf demo3r ∧
    ((∃ p s' evs, allocBuf demo3r = .ok p s' evs) ∨
      (∃ s', allocBuf demo3r = .exhausted s')) ∧
    (∀ s0, allocBufFuel 5 demo3r ≠ .spin s0) ∧
    (∀ f0, f0 < demo3r.numBufs → (demo3r.desc f0).pinCnt = 0 →
      ∃ p s' evs, allocBuf demo3r = .ok p s' evs) :=
  allocBuf_terminates demo3r 5 (by decide)

/-- Witness for C5: a concrete hit re-pins frame 1 and changes nothing
else. -/
theorem readPage_spec_witness :
    (readPage demo3r 1 11 105).ret = some 1 ∧
    (readPage demo3r 1 11 105).evs = [] ∧
    ((readPage demo3r 1 11 105).state.desc 1).pinCnt = (demo3r.desc 1).pinCnt + 1 ∧
    ((readPage demo3r 1 11 105).state.desc 1).refbit = true ∧
    (readPage demo3r 1 11 105).state.hashTable = demo3r.hashTable :=
  ⟨((readPage_spec demo3r (by decide) 1 11 105).1 1 (by decide)).1,
   ((readPage_spec demo3r (by decide) 1 11 105).1 1 (by decide)).2.2.1,
   ((readPage_spec demo3r (by decide) 1 11 105).1 1 (by decide)).2.2.2.1,
   ((readPage_spec demo3r (by decide) 1 11 105).1 1 (by decide)).2.2.2.2.1,
   ((readPage_spec demo3r (by decide) 1 11 105).1 1 (by decide)).2.2.2.2.2.2.2.2.2.2⟩

/-- Witness for C6: a concrete dirty release decrements the pin count and
sets the dirty bit. -/
theorem unPinPage_spec_witness :
    (unPinPage demo3 1 12 true).2 = none ∧
    (((unPinPage demo3 1 12 true).1).desc 2).pinCnt = (demo3.desc 2).pinCnt - 1 ∧
    (((unPinPage demo3 1 12 true).1).desc 2).dirty = (true || (demo3.desc 2).dirty) :=
  ⟨((unPinPage_spec demo3 1 12 true).2.2 2 (by decide) (by decide)).1,
   ((unPinPage_spec demo3 1 12 true).2.2 2 (by decide) (by decide)).2.1,
   ((unPinPage_spec demo3 1 12 true).2.2 2 (by decide) (by decide)).2.2.1⟩

/-- Witness for C7: flushing file 1 with frames 1 and 2 still pinned fails
with the page-pinned error at frame 1, leaving the frames from frame 1 on
unchanged. -/
theorem flushFile_spec_witness :
    (flushFile demo3r 1).2.1 = some (if 0 < (demo3r.desc 1).pinCnt
        then Err.pagePinned 1 (demo3r.desc 1).pageNo 1
        else Err.badBuffer 1 (demo3r.desc 1).dirty (demo3r.desc 1).valid
          (demo3r.desc 1).refbit) ∧
    (∀ j, 1 ≤ j → (flushFile demo3r 1).1.desc j = demo3r.desc j) :=
  ⟨((flushFile_spec demo3r (by decide) 1).2.2.2 1 (by decide) (by decide) (by decide)
      (by decide)).1,
   ((flushFile_spec demo3r (by decide) 1).2.2.2 1 (by decide) (by decide) (by decide)
      (by decide)).2.2⟩

/-- Witness for C8: disposing resident page (1, 11) whose frame is still
pinned clears the descriptor, removes the index entry and calls
`deletePage`. -/
theorem disposePage_spec_witness :
    (disposePage demo3 1 11).2 = [FEvent.deleteP 1 11] ∧
    (disposePage demo3 1 11).1.desc 1 = (demo3.desc 1).Clear ∧
    htLookup (disposePage demo3 1 11).1.hashTable 1 11 = none :=
  ⟨(disposePage_spec demo3 1 11).1,
   ((disposePage_spec demo3 1 11).2.1 1 (by decide)).1,
   ((disposePage_spec demo3 1 11).2.1 1 (by decide)).2.1⟩

/-- Witness for C9 at a concrete reachable pool. -/
theorem index_unique_and_agrees_witness :
    demo3r.hashTable.Pairwise (fun a b => a.1 ≠ b.1) ∧
    ((demo3r.desc 0).valid = true ↔
      htLookupO demo3r.hashTable (demo3r.desc 0).file (demo3r.desc 0).pageNo = some 0) :=
  ⟨(index_unique_and_agrees (Reachable.release 1 10 false (Reachable.fetch 1 12 102
      (Reachable.fetch 1 11 101 (Reachable.fetch 1 10 100 (Reachable.init 3)))))).1,
   (index_unique_and_agrees (Reachable.release 1 10 false (Reachable.fetch 1 12 102
      (Reachable.fetch 1 11 101 (Reachable.fetch 1 10 100 (Reachable.init 3)))))).2.2 0
     (by decide)⟩

/-- Witness for C10: the not-found anomaly at a concrete state whose index
entry is missing (frame returned, descriptor left valid and dirty), and the
normal eviction at the matching state with the entry present. -/
theorem evict_branch_anomaly_witness :
    (sweep anomalyDemo 1 = .found (vpos anomalyDemo) (advanceClock anomalyDemo)
        (evictEvs anomalyDemo (vpos anomalyDemo)) ∧
      ((advanceClock anomalyDemo).desc (vpos anomalyDemo)).valid = true ∧
      ((advanceClock anomalyDemo).desc (vpos anomalyDemo)).file = some 3 ∧
      ((advanceClock anomalyDemo).desc (vpos anomalyDemo)).pageNo =
        (anomalyDemo.desc (vpos anomalyDemo)).pageNo ∧
      ((advanceClock anomalyDemo).desc (vpos anomalyDemo)).dirty =
        (anomalyDemo.desc (vpos anomalyDemo)).dirty ∧
      (advanceClock anomalyDemo).hashTable = anomalyDemo.hashTable) ∧
    (∃ s', sweep evictDemo 1 = .found (vpos evictDemo) s'
        (evictEvs evictDemo (vpos evictDemo)) ∧
      s'.desc (vpos evictDemo) = (evictDemo.desc (vpos evictDemo)).Clear ∧
      s'.hashTable = evictDemo.hashTable.filter (keyNe 3 (evictDemo.desc
        (vpos evictDemo)).pageNo)) :=
  ⟨(evict_branch_anomaly anomalyDemo 0 (by decide) (by decide) (by decide)).2.1 3
      (by decide) (by decide),
   (evict_branch_anomaly evictDemo 0 (by decide) (by decide) (by decide)).2.2 3 0
      (by decide) (by decide)⟩

end BufMgr
